import Mathlib

/-!
Verification of the golang-dsa repository: a generic LIFO stack, a generic
FIFO queue (both singly linked lists), and a generic priority queue backed
by a binary heap driven through Go's container/heap algorithms.

The Lean definitions below are a shallow embedding of the Go source:

* `Stack` models `stack.Stack[T]` (field `top` is the chain of nodes from
  the top pointer, field `size` mirrors the explicit counter).
* `Queue` models `queue.Queue[T]`.  The source keeps `front` and `rear`
  pointers into one singly linked chain; `rear` always references the last
  node of the chain reachable from `front` (both `Push` branches and the
  `Pop` rear-reset keep it that way), so the state is modelled as the list
  of values from front to rear plus the explicit counter.
* `Item`, `PriorityQueue` and the functions in namespace `goheap` model
  `priorityqueue.Item[T]`, `priorityqueue.PriorityQueue[T]` and the
  `container/heap` package functions `up`, `down`, `Fix`, `Push`, `Pop`
  and `Remove` that the source delegates to, specialised to the
  `priorityHeap[T]` receiver (`Less`, `Swap`, `Push`, `Pop`).

Go `int` values returned by comparators are modelled as `Int`; the single
arithmetic operation performed on them by the source (`-compare(a, b)` in
`ReverseCompare`) wraps around at the 64-bit boundary exactly as Go's
two's-complement negation does, which `wrap64` makes explicit.

Out-of-range indices make the Go source panic; the embedding makes the
corresponding operations leave the state unchanged instead, and every
theorem that touches an index carries the bounds under which the source
does not panic.
-/

namespace DSA

/-! ## Stack (src/stack/stack.go) -/

/-- Model of `stack.Stack[T]`: `top` is the node chain from the top pointer,
`size` the explicit counter. -/
structure Stack (α : Type) where
  top : List α
  size : Nat
deriving Repr, DecidableEq

/-- Model of `stack.NewStack`. -/
def NewStack (α : Type) : Stack α := ⟨[], 0⟩

namespace Stack

variable {α : Type}

/-- Model of `Stack.Push`: prepend a node and bump the counter. -/
def Push (s : Stack α) (value : α) : Stack α := ⟨value :: s.top, s.size + 1⟩

/-- Model of `Stack.IsEmpty`: the source tests `top == nil`. -/
def IsEmpty (s : Stack α) : Bool := s.top.isEmpty

/-- Model of `Stack.Pop`.  `zero` stands for Go's `var zero T`; the `Bool`
component is `true` exactly when the source returns a non-nil error. -/
def Pop (s : Stack α) (zero : α) : (α × Bool) × Stack α :=
  match s.top with
  | [] => ((zero, true), s)
  | v :: rest => ((v, false), ⟨rest, s.size - 1⟩)

/-- Model of `Stack.Peek`. -/
def Peek (s : Stack α) (zero : α) : α × Bool :=
  match s.top with
  | [] => (zero, true)
  | v :: _ => (v, false)

/-- Model of `Stack.Size`. -/
def Size (s : Stack α) : Nat := s.size

/-- Model of `Stack.Clear`. -/
def Clear (_ : Stack α) : Stack α := ⟨[], 0⟩

/-- Iterated `Push` with no interleaved pops. -/
def pushList (s : Stack α) (vs : List α) : Stack α := vs.foldl Push s

/-- Iterated `Pop`: performs `n` pops and collects each `(value, err)` pair
in call order together with the final stack. -/
def popN (zero : α) : Nat → Stack α → List (α × Bool) × Stack α
  | 0, s => ([], s)
  | n + 1, s =>
    let r := s.Pop zero
    let rest := popN zero n r.2
    (r.1 :: rest.1, rest.2)

end Stack

/-! ## Queue (src/unnamed/part_001, package queue) -/

/-- Model of `queue.Queue[T]`: `front` is the chain of values from the front
pointer to the rear pointer, `size` the explicit counter. -/
structure Queue (α : Type) where
  front : List α
  size : Nat
deriving Repr, DecidableEq

/-- Model of `queue.NewQueue`. -/
def NewQueue (α : Type) : Queue α := ⟨[], 0⟩

namespace Queue

variable {α : Type}

/-- Model of `Queue.IsEmpty`: the source tests `front == nil`. -/
def IsEmpty (q : Queue α) : Bool := q.front.isEmpty

/-- Model of `Queue.Push`: both source branches (first element, or linking
through `rear.Next`) extend the chain by one node at the rear. -/
def Push (q : Queue α) (value : α) : Queue α := ⟨q.front ++ [value], q.size + 1⟩

/-- Model of `Queue.Pop`: removes the front node; the source's rear reset on
emptiness is automatic in the list view. -/
def Pop (q : Queue α) (zero : α) : (α × Bool) × Queue α :=
  match q.front with
  | [] => ((zero, true), q)
  | v :: rest => ((v, false), ⟨rest, q.size - 1⟩)

/-- Model of `Queue.Front`. -/
def Front (q : Queue α) (zero : α) : α × Bool :=
  match q.front with
  | [] => (zero, true)
  | v :: _ => (v, false)

/-- Model of `Queue.Rear`: after the emptiness check the source reads
`rear.Value`, the value of the last node of the chain. -/
def Rear (q : Queue α) (zero : α) : α × Bool :=
  if q.front.isEmpty then (zero, true) else ((q.front.getLast?).getD zero, false)

/-- Model of `Queue.Size`. -/
def Size (q : Queue α) : Nat := q.size

/-- Model of `Queue.Clear`. -/
def Clear (_ : Queue α) : Queue α := ⟨[], 0⟩

/-- Model of `Queue.ToSlice`. -/
def ToSlice (q : Queue α) : List α := q.front

/-- Iterated `Push` with no interleaved pops. -/
def pushList (q : Queue α) (vs : List α) : Queue α := vs.foldl Push q

/-- Iterated `Pop`: performs `n` pops and collects each `(value, err)` pair
in call order together with the final queue. -/
def popN (zero : α) : Nat → Queue α → List (α × Bool) × Queue α
  | 0, q => ([], q)
  | n + 1, q =>
    let r := q.Pop zero
    let rest := popN zero n r.2
    (r.1 :: rest.1, rest.2)

end Queue

/-! ## Priority queue (src/priorityqueue/priorityqueue.go) -/

/-- Model of `priorityqueue.Item[T]`.  `index` mirrors the Go `Index int`
field (it can hold the invalidation value `-1`, hence `Int`). -/
structure Item (α : Type) where
  value : α
  index : Int
deriving Repr, DecidableEq

/-- Model of `priorityqueue.NewItem`: Go zero-initialises `Index` to `0`. -/
def NewItem (value : α) : Item α := ⟨value, 0⟩

/-! The `container/heap` algorithms, specialised to the `priorityHeap[T]`
receiver whose `Less` compares `items[i].Value` with `items[j].Value` and
whose `Swap` also rewrites both `Index` fields.  They are parameterised by
the boolean test `less` that `priorityHeap.Less` performs on two values. -/
namespace goheap

variable {α : Type}

/-- Go's parent index `(j - 1) / 2`; on `j = 0` Go computes `-1 / 2 = 0`,
matching `Nat` subtraction. -/
def parent (j : Nat) : Nat := (j - 1) / 2

/-- Model of `priorityHeap.Less` applied at two positions.  Out-of-range
positions (which would panic in Go) yield `false`. -/
def lessAt (less : α → α → Bool) (l : List (Item α)) (i j : Nat) : Bool :=
  match l[i]?, l[j]? with
  | some a, some b => less a.value b.value
  | _, _ => false

/-- Model of `priorityHeap.Swap`: exchange the two items and set both
`Index` fields to their new positions. -/
def Swap (l : List (Item α)) (i j : Nat) : List (Item α) :=
  match l[i]?, l[j]? with
  | some a, some b => (l.set i ⟨b.value, i⟩).set j ⟨a.value, j⟩
  | _, _ => l

/-- Model of `container/heap.up`: sift the item at `j` toward the root while
it is `Less` than its parent. -/
def up (less : α → α → Bool) (l : List (Item α)) (j : Nat) : List (Item α) :=
  if j = 0 then l
  else
    let i := parent j
    if lessAt less l j i then up less (Swap l i j) i else l
termination_by j
decreasing_by simp only [parent]; omega

/-- Instrumented variant of `up` that also reports whether any upward swap
occurred; used to phrase the spec's reference fix-up. -/
def upMoved (less : α → α → Bool) (l : List (Item α)) (j : Nat) :
    List (Item α) × Bool :=
  if j = 0 then (l, false)
  else
    let i := parent j
    if lessAt less l j i then ((upMoved less (Swap l i j) i).1, true)
    else (l, false)
termination_by j
decreasing_by simp only [parent]; omega

/-- Model of `container/heap.down` on the index range `[0, n)`: returns the
final resting index together with the list; Go's boolean result is the test
`final index > start index`. -/
def downAux (less : α → α → Bool) (l : List (Item α)) (i n : Nat) :
    List (Item α) × Nat :=
  if n ≤ 2 * i + 1 then (l, i)
  else
    let j1 := 2 * i + 1
    let j2 := 2 * i + 2
    let j := if j2 < n ∧ lessAt less l j2 j1 then j2 else j1
    if lessAt less l j i then downAux less (Swap l i j) j n else (l, i)
termination_by n - i
decreasing_by
  split <;> omega

/-- Model of `container/heap.Fix`: sift down from `i`, and when that does
not move the item, sift up. -/
def Fix (less : α → α → Bool) (l : List (Item α)) (i : Nat) : List (Item α) :=
  let r := downAux less l i l.length
  if i < r.2 then r.1 else up less r.1 i

/-- Model of `container/heap.Push` composed with `priorityHeap.Push`: append
the item with `Index` set to the old length, then sift it up. -/
def PushItem (less : α → α → Bool) (l : List (Item α)) (x : Item α) :
    List (Item α) :=
  up less (l ++ [⟨x.value, (l.length : Int)⟩]) l.length

/-- Model of `priorityHeap.Pop`: detach the last item, invalidating its
`Index` with `-1`.  On the empty list (a panic in Go) nothing happens. -/
def PopLast (l : List (Item α)) : Option (Item α) × List (Item α) :=
  match l.getLast? with
  | some it => (some ⟨it.value, -1⟩, l.dropLast)
  | none => (none, l)

/-- Model of `container/heap.Pop`: swap the root with the last item, sift
down over the shortened range, then detach the last item. -/
def PopTop (less : α → α → Bool) (l : List (Item α)) :
    Option (Item α) × List (Item α) :=
  let n := l.length - 1
  let l1 := Swap l 0 n
  PopLast (downAux less l1 0 n).1

/-- Model of `container/heap.Remove` at index `i`: unless `i` is already the
last position, swap it with the last item and re-establish the invariant
there (down, then up when down did not move), then detach the last item. -/
def RemoveAt (less : α → α → Bool) (l : List (Item α)) (i : Nat) :
    Option (Item α) × List (Item α) :=
  let n := l.length - 1
  if n ≠ i then
    let l1 := Swap l i n
    let r := downAux less l1 i n
    PopLast (if i < r.2 then r.1 else up less r.1 i)
  else PopLast l

end goheap

/-- Model of `priorityqueue.PriorityQueue[T]` together with the comparator
and orientation carried by the inner `priorityHeap[T]`. -/
structure PriorityQueue (α : Type) where
  items : List (Item α)
  compare : α → α → Int
  isMaxHeap : Bool

namespace PriorityQueue

variable {α : Type}

/-- Model of `priorityHeap.Less` as a value test: `cmp > 0` for a max-heap
and `cmp < 0` for a min-heap. -/
def lessOf (pq : PriorityQueue α) : α → α → Bool :=
  fun a b =>
    let cmp := pq.compare a b
    if pq.isMaxHeap then decide (0 < cmp) else decide (cmp < 0)

/-- Model of `NewMinQueue`; `heap.Init` is a no-op on the empty slice. -/
def NewMinQueue (compare : α → α → Int) : PriorityQueue α := ⟨[], compare, false⟩

/-- Model of `NewMaxQueue`; `heap.Init` is a no-op on the empty slice. -/
def NewMaxQueue (compare : α → α → Int) : PriorityQueue α := ⟨[], compare, true⟩

/-- Model of `PriorityQueue.Push`: wrap the value in a fresh item and hand
it to `heap.Push`. -/
def Push (pq : PriorityQueue α) (value : α) : PriorityQueue α :=
  { pq with items := goheap.PushItem pq.lessOf pq.items (NewItem value) }

/-- Model of `PriorityQueue.IsEmpty`. -/
def IsEmpty (pq : PriorityQueue α) : Bool := pq.items.length == 0

/-- Model of `PriorityQueue.Size`. -/
def Size (pq : PriorityQueue α) : Nat := pq.items.length

/-- Model of `PriorityQueue.Pop`.  `zero` stands for Go's `var zero T`; the
`Bool` component is `true` exactly when the source returns an error. -/
def Pop (pq : PriorityQueue α) (zero : α) : (α × Bool) × PriorityQueue α :=
  if pq.items.length = 0 then ((zero, true), pq)
  else
    match goheap.PopTop pq.lessOf pq.items with
    | (some it, l) => ((it.value, false), { pq with items := l })
    | (none, l) => ((zero, true), { pq with items := l })

/-- Model of `PriorityQueue.Peek`. -/
def Peek (pq : PriorityQueue α) (zero : α) : α × Bool :=
  if pq.items.length = 0 then (zero, true)
  else (((pq.items.head?).map Item.value).getD zero, false)

/-- Model of `PriorityQueue.UpdateItem`: `heap.Fix` at the item's recorded
index (a negative index would panic in Go; the clamp to `Nat` is only ever
exercised under the valid-handle hypotheses of the theorems below). -/
def UpdateItem (pq : PriorityQueue α) (item : Item α) : PriorityQueue α :=
  { pq with items := goheap.Fix pq.lessOf pq.items item.index.toNat }

/-- Model of `PriorityQueue.Remove`: `heap.Remove` at the item's recorded
index, discarding the returned item as the source does. -/
def Remove (pq : PriorityQueue α) (item : Item α) : PriorityQueue α :=
  { pq with items := (goheap.RemoveAt pq.lessOf pq.items item.index.toNat).2 }

/-- Model of `PriorityQueue.ToSlice` (a copy of the backing slice). -/
def ToSlice (pq : PriorityQueue α) : List (Item α) := pq.items

/-- Model of `PriorityQueue.Clear`: truncate to length 0 (`heap.Init` is
then a no-op). -/
def Clear (pq : PriorityQueue α) : PriorityQueue α := { pq with items := [] }

/-- Iterated `Push` with no interleaved pops. -/
def pushList (pq : PriorityQueue α) (vs : List α) : PriorityQueue α :=
  vs.foldl Push pq

/-- Iterated `Pop`: performs `n` pops and collects each `(value, err)` pair
in call order together with the final queue. -/
def popN (zero : α) : Nat → PriorityQueue α → List (α × Bool) × PriorityQueue α
  | 0, pq => ([], pq)
  | n + 1, pq =>
    let r := pq.Pop zero
    let rest := popN zero n r.2
    (r.1 :: rest.1, rest.2)

end PriorityQueue

/-- Model of `priorityqueue.IntCompare`. -/
def IntCompare (a b : Int) : Int := if a < b then -1 else if a > b then 1 else 0

/-- Wrap an unbounded integer into the two's-complement range of Go's 64-bit
`int`, as Go's overflowing arithmetic does. -/
def wrap64 (x : Int) : Int := (x + 2 ^ 63) % 2 ^ 64 - 2 ^ 63

/-- Model of `priorityqueue.ReverseCompare`: the returned comparator negates
`compare`, with Go's wrap-around on `int` negation made explicit. -/
def ReverseCompare (compare : α → α → Int) : α → α → Int :=
  fun a b => wrap64 (-(compare a b))


/-! ## Specification predicates and auxiliary definitions -/

namespace goheap

variable {α : Type} {less : α → α → Bool}

/-- The binary-heap invariant on the first `n` positions: no item is `less`
than its parent. -/
def heapPropN (less : α → α → Bool) (l : List (Item α)) (n : Nat) : Prop :=
  ∀ k, k < n → 0 < k → lessAt less l k (parent k) = false

instance (less : α → α → Bool) (l : List (Item α)) (n : Nat) :
    Decidable (heapPropN less l n) := by
  unfold heapPropN
  exact inferInstance

/-- Every stored item's `Index` field equals its position in the backing
array. -/
def idxOK (l : List (Item α)) : Prop :=
  ∀ k, ∀ h : k < l.length, (l[k]).index = (k : Int)

instance (l : List (Item α)) : Decidable (idxOK l) := by
  unfold idxOK
  exact inferInstance

/-- The common fix-up shape shared by `Fix` (with `n = l.length`) and
`Remove` (with `n = l.length - 1` after the swap with the last item). -/
def fixAtN (less : α → α → Bool) (l : List (Item α)) (i n : Nat) :
    List (Item α) :=
  let r := downAux less l i n
  if i < r.2 then r.1 else up less r.1 i

/-- Modelled from the spec: the reference fix-up for `UpdateItem` that
"attempts a sift-up and, only if no upward swap occurred, a sift-down"
(spec sections 4.3 and 9).  The sift-up and sift-down are the heap's own
routines; `upMoved` additionally reports whether the sift-up swapped. -/
def FixUpFirst (less : α → α → Bool) (l : List (Item α)) (i : Nat) :
    List (Item α) :=
  let r := upMoved less l i
  if r.2 then r.1 else (downAux less r.1 i l.length).1

/-- Precondition under which `up j` restores the heap invariant on `[0, n)`:
every parent edge except the one into `j` is ordered, and the children of
`j` (if any) are already ordered against the parent of `j`, so that the
parent may move down into `j`. -/
structure UpPre (less : α → α → Bool) (l : List (Item α)) (j n : Nat) : Prop where
  hn : n ≤ l.length
  hj : j < n
  edges : ∀ k, k < n → 0 < k → k ≠ j → lessAt less l k (parent k) = false
  below : 0 < j → ∀ c, c < n → parent c = j → lessAt less l c (parent j) = false

/-- Precondition under which `down i n` restores the heap invariant on
`[0, n)`: every parent edge except those into the children of `i` is
ordered, and the children of `i` are already ordered against the parent of
`i`, so that any child may move up into `i`. -/
structure DownInv (less : α → α → Bool) (l : List (Item α)) (i n : Nat) : Prop where
  hn : n ≤ l.length
  edges : ∀ k, k < n → 0 < k → parent k ≠ i → lessAt less l k (parent k) = false
  below : 0 < i → ∀ c, c < n → parent c = i → lessAt less l c (parent i) = false

end goheap

/-- The properties of the boolean test derived from a comparator that obeys
the spec's comparator contract (a strict weak ordering). -/
structure IsSWO (less : α → α → Bool) : Prop where
  irrefl : ∀ a, less a a = false
  lt_trans : ∀ a b c, less a b = true → less b c = true → less a c = true
  nlt_trans : ∀ a b c, less a b = false → less b c = false → less a c = false

/-- The spec's comparator contract: the sign of `compare` flips under
argument exchange, and the induced weak order is transitive. -/
structure ValidCompare (compare : α → α → Int) : Prop where
  sign : ∀ a b, compare a b < 0 ↔ 0 < compare b a
  le_trans : ∀ a b c, compare a b ≤ 0 → compare b c ≤ 0 → compare a c ≤ 0

/-- The boolean test `priorityHeap.Less` performs on two values, as a
function of the comparator and the orientation flag. -/
def lessFor (compare : α → α → Int) (isMax : Bool) : α → α → Bool :=
  fun a b =>
    let cmp := compare a b
    if isMax then decide (0 < cmp) else decide (cmp < 0)

namespace PriorityQueue

variable {α : Type}

/-- Operation histories of a queue built by `NewMinQueue`/`NewMaxQueue`
(`isMax` selects the constructor) consisting of pushes, pops and clears. -/
inductive Reach (compare : α → α → Int) (isMax : Bool) : PriorityQueue α → Prop
  | newq : Reach compare isMax ⟨[], compare, isMax⟩
  | push (pq : PriorityQueue α) (v : α) : Reach compare isMax pq →
      Reach compare isMax (pq.Push v)
  | pop (pq : PriorityQueue α) (zero : α) : Reach compare isMax pq →
      Reach compare isMax (pq.Pop zero).2
  | clear (pq : PriorityQueue α) : Reach compare isMax pq →
      Reach compare isMax pq.Clear

end PriorityQueue

/-- Comparator used by the C8 counterexample: it constantly answers with
the smallest value of Go's 64-bit `int`, whose negation overflows. -/
def cexCompare : Unit → Unit → Int := fun _ _ => -(2 ^ 63)

/-- Concrete two-element min-queue used by the C5 witness: the item at
position 1 has been externally lowered to the strict minimum 1. -/
def c5pq : PriorityQueue Int := ⟨[⟨5, 0⟩, ⟨1, 1⟩], IntCompare, false⟩

/-- Concrete three-element min-heap used by the C6 witness. -/
def c6pq : PriorityQueue Int := ⟨[⟨1, 0⟩, ⟨5, 1⟩, ⟨2, 2⟩], IntCompare, false⟩

/-- Concrete five-element min-heap used by the C7 witness; the handle
`⟨3, 1⟩` is the stored item at position 1. -/
def c7pq : PriorityQueue Int :=
  ⟨[⟨1, 0⟩, ⟨3, 1⟩, ⟨2, 2⟩, ⟨8, 3⟩, ⟨4, 4⟩], IntCompare, false⟩


/-! ## Basic stack and queue lemmas -/

variable {α : Type}

theorem Stack.pushList_top (s : Stack α) (vs : List α) :
    (Stack.pushList s vs).top = vs.reverse ++ s.top := by
  induction vs generalizing s with
  | nil => simp [Stack.pushList]
  | cons v vs ih =>
    show (Stack.pushList (s.Push v) vs).top = _
    rw [ih]
    simp [Stack.Push]

theorem Stack.popN_of_top_append (zero : α) (ws rest : List α) (s : Stack α)
    (h : s.top = ws ++ rest) :
    (Stack.popN zero ws.length s).1 = ws.map (fun v => (v, false)) ∧
      (Stack.popN zero ws.length s).2.top = rest := by
  induction ws generalizing s with
  | nil => simpa [Stack.popN] using h
  | cons w ws ih =>
    have h1 : s.Pop zero = ((w, false), ⟨ws ++ rest, s.size - 1⟩) := by
      simp [Stack.Pop, h]
    have := ih ⟨ws ++ rest, s.size - 1⟩ rfl
    simp only [List.length_cons, Stack.popN, h1, List.map_cons]
    exact ⟨by rw [this.1], this.2⟩

theorem Queue.pushList_front (q : Queue α) (vs : List α) :
    (Queue.pushList q vs).front = q.front ++ vs := by
  induction vs generalizing q with
  | nil => simp [Queue.pushList]
  | cons v vs ih =>
    show (Queue.pushList (q.Push v) vs).front = _
    rw [ih]
    simp [Queue.Push]

theorem Queue.popN_of_front_append (zero : α) (ws rest : List α) (q : Queue α)
    (h : q.front = ws ++ rest) :
    (Queue.popN zero ws.length q).1 = ws.map (fun v => (v, false)) ∧
      (Queue.popN zero ws.length q).2.front = rest := by
  induction ws generalizing q with
  | nil => simpa [Queue.popN] using h
  | cons w ws ih =>
    have h1 : q.Pop zero = ((w, false), ⟨ws ++ rest, q.size - 1⟩) := by
      simp [Queue.Pop, h]
    have := ih ⟨ws ++ rest, q.size - 1⟩ rfl
    simp only [List.length_cons, Queue.popN, h1, List.map_cons]
    exact ⟨by rw [this.1], this.2⟩


/-! ## List helper lemmas -/

theorem coe_set_add {β : Type} (l : List β) (i : Nat) (a : β) (hi : i < l.length) :
    ((l.set i a : List β) : Multiset β) + {l[i]} = (l : Multiset β) + {a} := by
  induction l generalizing i with
  | nil => simp at hi
  | cons x xs ih =>
    cases i with
    | zero =>
      simp only [List.set_cons_zero, List.getElem_cons_zero]
      change (a ::ₘ (xs : Multiset β)) + {x} = (x ::ₘ (xs : Multiset β)) + {a}
      rw [add_comm, Multiset.singleton_add, add_comm, Multiset.singleton_add,
        Multiset.cons_swap]
    | succ i =>
      have hi2 : i < xs.length := by simpa using hi
      simp only [List.set_cons_succ, List.getElem_cons_succ]
      change (x ::ₘ ((xs.set i a : List β) : Multiset β)) + {xs[i]}
        = (x ::ₘ (xs : Multiset β)) + {a}
      have := ih i hi2
      rw [Multiset.cons_add, Multiset.cons_add, this]

theorem coe_eraseIdx_add {β : Type} (l : List β) (i : Nat) (hi : i < l.length) :
    ((l.eraseIdx i : List β) : Multiset β) + {l[i]} = (l : Multiset β) := by
  induction l generalizing i with
  | nil => simp at hi
  | cons x xs ih =>
    cases i with
    | zero =>
      simp only [List.eraseIdx_cons_zero, List.getElem_cons_zero]
      change (xs : Multiset β) + {x} = x ::ₘ (xs : Multiset β)
      rw [add_comm, Multiset.singleton_add]
    | succ i =>
      have hi2 : i < xs.length := by simpa using hi
      simp only [List.eraseIdx_cons_succ, List.getElem_cons_succ]
      change (x ::ₘ ((xs.eraseIdx i : List β) : Multiset β)) + {xs[i]}
        = x ::ₘ (xs : Multiset β)
      rw [Multiset.cons_add, ih i hi2]

/-- Exchanging two in-range entries of a list leaves its multiset unchanged. -/
theorem getElem?_set_self_of_lt {β : Type} (l : List β) (i : Nat) (a : β)
    (h : i < l.length) : (l.set i a)[i]? = some a := by
  rw [List.getElem?_eq_getElem (by simpa using h)]
  simp

theorem coe_set_set_swap {β : Type} (xs : List β) (i j : Nat) (hi : i < xs.length)
    (hj : j < xs.length) :
    (((xs.set i xs[j]).set j xs[i] : List β) : Multiset β) = (xs : Multiset β) := by
  have h1 := coe_set_add xs i xs[j] hi
  have hj1 : j < (xs.set i xs[j]).length := by simpa using hj
  have h2 := coe_set_add (xs.set i xs[j]) j xs[i] hj1
  have hg : (xs.set i xs[j])[j] = xs[j] := by
    rcases eq_or_ne i j with rfl | hne
    · simp
    · exact List.getElem_set_ne hne _
  rw [hg, h1] at h2
  exact add_right_cancel h2

namespace goheap

variable {α : Type} {less : α → α → Bool}

/-! ### Swap lemmas -/

theorem Swap_of_oob {l : List (Item α)} {i j : Nat}
    (h : l.length ≤ i ∨ l.length ≤ j) : Swap l i j = l := by
  unfold Swap
  split
  next a b ha hb =>
    exfalso
    rcases h with h | h
    · rw [List.getElem?_eq_none h] at ha
      cases ha
    · rw [List.getElem?_eq_none h] at hb
      cases hb
  next => rfl

theorem Swap_def {l : List (Item α)} {i j : Nat} (hi : i < l.length)
    (hj : j < l.length) :
    Swap l i j = (l.set i ⟨l[j].value, (i : Int)⟩).set j ⟨l[i].value, (j : Int)⟩ := by
  rw [Swap, List.getElem?_eq_getElem hi, List.getElem?_eq_getElem hj]

@[simp]
theorem length_Swap (l : List (Item α)) (i j : Nat) :
    (Swap l i j).length = l.length := by
  unfold Swap
  split <;> simp

theorem getElem?_Swap_of_ne {l : List (Item α)} {i j k : Nat} (h1 : k ≠ i)
    (h2 : k ≠ j) : (Swap l i j)[k]? = l[k]? := by
  unfold Swap
  split
  next a b ha hb =>
    rw [List.getElem?_set_ne (Ne.symm h2), List.getElem?_set_ne (Ne.symm h1)]
  next => rfl

theorem getElem?_Swap_right {l : List (Item α)} {i j : Nat} (hi : i < l.length)
    (hj : j < l.length) : (Swap l i j)[j]? = some ⟨l[i].value, (j : Int)⟩ := by
  rw [Swap_def hi hj]
  exact getElem?_set_self_of_lt _ _ _ (by simpa using hj)

theorem getElem?_Swap_left {l : List (Item α)} {i j : Nat} (hi : i < l.length)
    (hj : j < l.length) (hne : i ≠ j) :
    (Swap l i j)[i]? = some ⟨l[j].value, (i : Int)⟩ := by
  rw [Swap_def hi hj, List.getElem?_set_ne (Ne.symm hne)]
  exact getElem?_set_self_of_lt _ _ _ hi

/-- The multiset of stored values is unchanged by `Swap`. -/
theorem vals_Swap (l : List (Item α)) (i j : Nat) :
    (((Swap l i j).map Item.value : List α) : Multiset α)
      = ((l.map Item.value : List α) : Multiset α) := by
  rcases Nat.lt_or_ge i l.length with hi | hi
  swap
  · rw [Swap_of_oob (Or.inl hi)]
  rcases Nat.lt_or_ge j l.length with hj | hj
  swap
  · rw [Swap_of_oob (Or.inr hj)]
  rw [Swap_def hi hj, List.map_set, List.map_set]
  have hmi : i < (l.map Item.value).length := by simpa using hi
  have hmj : j < (l.map Item.value).length := by simpa using hj
  have e := coe_set_set_swap (l.map Item.value) i j hmi hmj
  have hvi : (l.map Item.value)[i] = l[i].value := List.getElem_map Item.value
  have hvj : (l.map Item.value)[j] = l[j].value := List.getElem_map Item.value
  rw [hvi, hvj] at e
  exact e

/-! ### Structural lemmas for up and down -/

theorem length_up (less : α → α → Bool) (l : List (Item α)) (j : Nat) :
    (up less l j).length = l.length := by
  induction l, j using up.induct less with
  | case1 l => rw [up.eq_def]; simp
  | case2 l j hj i hlt ih =>
    rw [up.eq_def]
    simp only [if_neg hj, hlt, if_true]
    rw [ih, length_Swap]
  | case3 l j hj i hnlt =>
    rw [up.eq_def]
    simp only [if_neg hj]
    rw [if_neg hnlt]

theorem vals_up (less : α → α → Bool) (l : List (Item α)) (j : Nat) :
    (((up less l j).map Item.value : List α) : Multiset α)
      = ((l.map Item.value : List α) : Multiset α) := by
  induction l, j using up.induct less with
  | case1 l => rw [up.eq_def]; simp
  | case2 l j hj i hlt ih =>
    rw [up.eq_def]
    simp only [if_neg hj, hlt, if_true]
    rw [ih, vals_Swap]
  | case3 l j hj i hnlt =>
    rw [up.eq_def]
    simp only [if_neg hj]
    rw [if_neg hnlt]

/-- Sifting up from `j` only touches positions at most `j`. -/
theorem getElem?_up_of_gt (less : α → α → Bool) (l : List (Item α)) (j : Nat)
    (k : Nat) (hk : j < k) : (up less l j)[k]? = l[k]? := by
  induction l, j using up.induct less with
  | case1 l => rw [up.eq_def]; simp
  | case2 l j hj i hlt ih =>
    rw [up.eq_def]
    simp only [if_neg hj, hlt, if_true]
    have hij : i < j := by simp only [i, parent]; omega
    rw [ih (by omega), getElem?_Swap_of_ne (by omega) (by omega)]
  | case3 l j hj i hnlt =>
    rw [up.eq_def]
    simp only [if_neg hj]
    rw [if_neg hnlt]

theorem length_downAux (less : α → α → Bool) (l : List (Item α)) (i n : Nat) :
    (downAux less l i n).1.length = l.length := by
  induction l, i, n using downAux.induct less with
  | case1 l i n h => rw [downAux.eq_def]; simp [if_pos h]
  | case2 l i n h j1 j2 j hlt ih =>
    simp only [j, j2, j1, dite_eq_ite] at hlt ih
    rw [downAux.eq_def]
    simp only [if_neg h, hlt, if_true]
    rw [ih, length_Swap]
  | case3 l i n h j1 j2 j hnlt =>
    simp only [j, j2, j1, dite_eq_ite] at hnlt
    rw [downAux.eq_def]
    simp only [if_neg h]
    rw [if_neg hnlt]

theorem vals_downAux (less : α → α → Bool) (l : List (Item α)) (i n : Nat) :
    (((downAux less l i n).1.map Item.value : List α) : Multiset α)
      = ((l.map Item.value : List α) : Multiset α) := by
  induction l, i, n using downAux.induct less with
  | case1 l i n h => rw [downAux.eq_def]; simp [if_pos h]
  | case2 l i n h j1 j2 j hlt ih =>
    simp only [j, j2, j1, dite_eq_ite] at hlt ih
    rw [downAux.eq_def]
    simp only [if_neg h, hlt, if_true]
    rw [ih, vals_Swap]
  | case3 l i n h j1 j2 j hnlt =>
    simp only [j, j2, j1, dite_eq_ite] at hnlt
    rw [downAux.eq_def]
    simp only [if_neg h]
    rw [if_neg hnlt]

/-- Sifting down within `[0, n)` only touches positions below `n`. -/
theorem getElem?_downAux_of_ge (less : α → α → Bool) (l : List (Item α))
    (i n : Nat) (k : Nat) (hk : n ≤ k) : (downAux less l i n).1[k]? = l[k]? := by
  induction l, i, n using downAux.induct less with
  | case1 l i n h => rw [downAux.eq_def]; simp [if_pos h]
  | case2 l i n h j1 j2 j hlt ih =>
    simp only [j, j2, j1, dite_eq_ite] at hlt ih
    rw [downAux.eq_def]
    simp only [if_neg h, hlt, if_true]
    have hjn : (if 2 * i + 2 < n ∧ lessAt less l (2 * i + 2) (2 * i + 1) = true
        then 2 * i + 2 else 2 * i + 1) < n := by
      by_cases hc : 2 * i + 2 < n ∧ lessAt less l (2 * i + 2) (2 * i + 1) = true
      · rw [if_pos hc]; exact hc.1
      · rw [if_neg hc]; omega
    rw [ih hk, getElem?_Swap_of_ne (by omega) (by omega)]
  | case3 l i n h j1 j2 j hnlt =>
    simp only [j, j2, j1, dite_eq_ite] at hnlt
    rw [downAux.eq_def]
    simp only [if_neg h]
    rw [if_neg hnlt]

theorem downAux_snd_ge (less : α → α → Bool) (l : List (Item α)) (i n : Nat) :
    i ≤ (downAux less l i n).2 := by
  induction l, i, n using downAux.induct less with
  | case1 l i n h => rw [downAux.eq_def]; simp [if_pos h]
  | case2 l i n h j1 j2 j hlt ih =>
    simp only [j, j2, j1, dite_eq_ite] at hlt ih
    rw [downAux.eq_def]
    simp only [if_neg h, hlt, if_true]
    refine le_trans ?_ ih
    by_cases hc : 2 * i + 2 < n ∧ lessAt less l (2 * i + 2) (2 * i + 1) = true
    · rw [if_pos hc]; omega
    · rw [if_neg hc]; omega
  | case3 l i n h j1 j2 j hnlt =>
    simp only [j, j2, j1, dite_eq_ite] at hnlt
    rw [downAux.eq_def]
    simp only [if_neg h]
    rw [if_neg hnlt]

/-- When `down` reports no movement, the list is untouched. -/
theorem downAux_fst_of_not_moved (less : α → α → Bool) (l : List (Item α))
    (i n : Nat) (h : ¬ i < (downAux less l i n).2) :
    (downAux less l i n).1 = l := by
  rw [downAux.eq_def] at h ⊢
  by_cases h0 : n ≤ 2 * i + 1
  · simp [if_pos h0]
  · simp only [if_neg h0] at h ⊢
    by_cases hlt : lessAt less l
        (if 2 * i + 2 < n ∧ lessAt less l (2 * i + 2) (2 * i + 1) = true
          then 2 * i + 2 else 2 * i + 1) i = true
    · exfalso
      rw [if_pos hlt] at h
      refine h (lt_of_lt_of_le ?_ (downAux_snd_ge less _ _ n))
      by_cases hc : 2 * i + 2 < n ∧ lessAt less l (2 * i + 2) (2 * i + 1) = true
      · rw [if_pos hc]; omega
      · rw [if_neg hc]; omega
    · rw [if_neg hlt]

/-- One-step stop: when no in-range child of `i` is less than `i`, `down`
does not move. -/
theorem downAux_eq_self (less : α → α → Bool) (l : List (Item α)) (i n : Nat)
    (h : ∀ c, c < n → parent c = i → 0 < c → lessAt less l c i = false) :
    downAux less l i n = (l, i) := by
  rw [downAux.eq_def]
  by_cases h0 : n ≤ 2 * i + 1
  · rw [if_pos h0]
  · rw [if_neg h0]
    have hjn : (if 2 * i + 2 < n ∧ lessAt less l (2 * i + 2) (2 * i + 1) = true
        then 2 * i + 2 else 2 * i + 1) < n := by
      by_cases hc : 2 * i + 2 < n ∧ lessAt less l (2 * i + 2) (2 * i + 1) = true
      · rw [if_pos hc]; exact hc.1
      · rw [if_neg hc]; omega
    have hpar : parent (if 2 * i + 2 < n ∧ lessAt less l (2 * i + 2) (2 * i + 1) = true
        then 2 * i + 2 else 2 * i + 1) = i := by
      by_cases hc : 2 * i + 2 < n ∧ lessAt less l (2 * i + 2) (2 * i + 1) = true
      · rw [if_pos hc]; simp only [parent]; omega
      · rw [if_neg hc]; simp only [parent]; omega
    have hpos : 0 < (if 2 * i + 2 < n ∧ lessAt less l (2 * i + 2) (2 * i + 1) = true
        then 2 * i + 2 else 2 * i + 1) := by
      by_cases hc : 2 * i + 2 < n ∧ lessAt less l (2 * i + 2) (2 * i + 1) = true
      · rw [if_pos hc]; omega
      · rw [if_neg hc]; omega
    rw [if_neg ?_]
    rw [h _ hjn hpar hpos]
    simp

/-! ### Ordering assumptions and the heap predicate -/

end goheap


theorem IsSWO.asymm {less : α → α → Bool} (hs : IsSWO less) {a b : α}
    (h : less a b = true) : less b a = false := by
  by_contra hcon
  rw [Bool.not_eq_false] at hcon
  have := hs.lt_trans a b a h hcon
  rw [hs.irrefl a] at this
  cases this

theorem IsSWO.nlt_of_nlt_of_lt {less : α → α → Bool} (hs : IsSWO less)
    {a b c : α} (h1 : less a c = false) (h2 : less b c = true) :
    less a b = false := by
  by_contra hcon
  rw [Bool.not_eq_false] at hcon
  have := hs.lt_trans a b c hcon h2
  rw [h1] at this
  cases this

theorem IsSWO.nlt_of_lt_of_nlt {less : α → α → Bool} (hs : IsSWO less)
    {a b c : α} (h1 : less c a = true) (h2 : less c b = false) :
    less a b = false := by
  by_contra hcon
  rw [Bool.not_eq_false] at hcon
  have := hs.lt_trans c a b h1 hcon
  rw [h2] at this
  cases this

namespace goheap


theorem lessAt_eval {l : List (Item α)} {a b : Nat} (ha : a < l.length)
    (hb : b < l.length) : lessAt less l a b = less l[a].value l[b].value := by
  rw [lessAt, List.getElem?_eq_getElem ha, List.getElem?_eq_getElem hb]

/-- Value stored at a position of `Swap l i j`, as a function of the old
values. -/
theorem getElem_Swap_value {l : List (Item α)} {i j k : Nat} (hi : i < l.length)
    (hj : j < l.length) (hk : k < (Swap l i j).length) (hk2 : k < l.length) :
    (Swap l i j)[k].value
      = if k = j then l[i].value else if k = i then l[j].value
        else l[k].value := by
  rcases eq_or_ne k j with rfl | hkj
  · have := @getElem?_Swap_right α l i k hi hj
    rw [List.getElem?_eq_getElem hk] at this
    rw [Option.some.inj this]
    simp
  rcases eq_or_ne k i with rfl | hki
  · have := @getElem?_Swap_left α l k j hi hj hkj
    rw [List.getElem?_eq_getElem hk] at this
    rw [Option.some.inj this]
    simp [hkj]
  · have := @getElem?_Swap_of_ne α l i j k hki hkj
    rw [List.getElem?_eq_getElem hk, List.getElem?_eq_getElem hk2] at this
    rw [Option.some.inj this]
    simp [hkj, hki]


theorem up_restores (hs : IsSWO less) (l : List (Item α)) (j n : Nat)
    (h : UpPre less l j n) : heapPropN less (up less l j) n := by
  induction l, j using up.induct less with
  | case1 l =>
    rw [up.eq_def]
    simp only [if_pos rfl]
    intro k hk hpos
    exact h.edges k hk hpos (by omega)
  | case2 l j hj i hlt ih =>
    rw [up.eq_def]
    simp only [if_neg hj, hlt, if_true]
    apply ih
    have hij : i < j := by simp only [i, parent]; omega
    have hn := h.hn
    have hjn := h.hj
    have hjl : j < l.length := by omega
    have hil : i < l.length := by omega
    have hltv : less l[j].value l[i].value = true := by
      rw [lessAt_eval hjl hil] at hlt
      exact hlt
    refine ⟨by rw [length_Swap]; exact hn, by omega, ?_, ?_⟩
    · -- edges of the swapped list, with the new hole at i
      intro k hk hpos hki
      have hkl : k < l.length := by omega
      have hkS : k < (Swap l i j).length := by simpa using hkl
      have hpk_le : parent k ≤ k := by simp only [parent]; omega
      have hpkl : parent k < l.length := by omega
      have hpkS : parent k < (Swap l i j).length := by simpa using hpkl
      rw [lessAt_eval hkS hpkS, getElem_Swap_value hil hjl hkS hkl,
        getElem_Swap_value hil hjl hpkS hpkl]
      rcases eq_or_ne k j with rfl | hkj
      · -- the moved-down parent: edge (j, i)
        have hpk_lt : parent k < k := hij
        rw [if_pos rfl, if_neg (by omega : ¬ parent k = k),
          if_pos (rfl : parent k = i)]
        exact hs.asymm hltv
      · rw [if_neg hkj, if_neg hki]
        rcases eq_or_ne (parent k) j with hpkj | hpkj
        · -- a child of j now looks at the old parent value
          rw [if_pos hpkj]
          have := h.below (by omega) k hk hpkj
          rw [lessAt_eval hkl hil] at this
          exact this
        · rcases eq_or_ne (parent k) i with hpki | hpki
          · -- the sibling of j now looks at the moved-up value
            rw [if_neg hpkj, if_pos hpki]
            have hedge := h.edges k hk hpos hkj
            rw [lessAt_eval hkl hpkl] at hedge
            have hopt : l[parent k]? = l[i]? := by rw [hpki]
            rw [List.getElem?_eq_getElem hpkl, List.getElem?_eq_getElem hil] at hopt
            have hedge2 : less l[k].value l[i].value = false := by
              rw [← Option.some.inj hopt]
              exact hedge
            exact hs.nlt_of_nlt_of_lt hedge2 hltv
          · -- an edge not touching i or j
            rw [if_neg hpkj, if_neg hpki]
            have hedge := h.edges k hk hpos hkj
            rw [lessAt_eval hkl hpkl] at hedge
            exact hedge
    · -- children of the new hole i are ordered against the parent of i
      intro hipos c hc hpc
      have hcl : c < l.length := by omega
      have hcS : c < (Swap l i j).length := by simpa using hcl
      have hcbig : i < c := by simp only [parent] at hpc; omega
      have hgi : parent i < i := by simp only [parent]; omega
      have hgl : parent i < l.length := by omega
      have hgS : parent i < (Swap l i j).length := by simpa using hgl
      have hedge_i : less l[i].value l[parent i].value = false := by
        have := h.edges i (by omega) hipos (by omega)
        rw [lessAt_eval hil hgl] at this
        exact this
      rw [lessAt_eval hcS hgS, getElem_Swap_value hil hjl hcS hcl,
        getElem_Swap_value hil hjl hgS hgl,
        if_neg (by omega : parent i ≠ j), if_neg (by omega : parent i ≠ i)]
      rcases eq_or_ne c j with rfl | hcj
      · rw [if_pos rfl]
        exact hedge_i
      · rw [if_neg hcj, if_neg (by omega : c ≠ i)]
        have hedge_c := h.edges c hc (by omega) hcj
        rw [hpc, lessAt_eval hcl hil] at hedge_c
        exact hs.nlt_trans _ _ _ hedge_c hedge_i
  | case3 l j hj i hnlt =>
    rw [up.eq_def]
    simp only [if_neg hj]
    rw [if_neg hnlt]
    intro k hk hpos
    rcases eq_or_ne k j with rfl | hkj
    · rw [Bool.not_eq_true] at hnlt
      exact hnlt
    · exact h.edges k hk hpos hkj


/-- Swapping `i` with a minimal child `J` that is `Less` than `i` moves the
down-sift precondition to `J`. -/
theorem DownInv_step (hs : IsSWO less) {l : List (Item α)} {i n J : Nat}
    (h : DownInv less l i n) (hJn : J < n) (hJpar : parent J = i) (hJi : i < J)
    (hsib : ∀ c, c < n → 0 < c → parent c = i → c ≠ J → lessAt less l c J = false)
    (hlt : lessAt less l J i = true) :
    DownInv less (Swap l i J) J n := by
  have hn := h.hn
  have hJl : J < l.length := by omega
  have hil : i < l.length := by omega
  have hltv : less l[J].value l[i].value = true := by
    rw [lessAt_eval hJl hil] at hlt
    exact hlt
  refine ⟨by rw [length_Swap]; exact hn, ?_, ?_⟩
  · -- edges of the swapped list, with the new hole at J
    intro k hk hpos hpkJ
    have hkl : k < l.length := by omega
    have hkS : k < (Swap l i J).length := by simpa using hkl
    have hpk_le : parent k ≤ k := by simp only [parent]; omega
    have hpkl : parent k < l.length := by omega
    have hpkS : parent k < (Swap l i J).length := by simpa using hpkl
    rw [lessAt_eval hkS hpkS, getElem_Swap_value hil hJl hkS hkl,
      getElem_Swap_value hil hJl hpkS hpkl]
    rcases eq_or_ne k J with rfl | hkJ
    · -- the moved-up child: edge (J, i)
      rw [if_pos rfl, if_neg (show ¬ parent k = k by rw [hJpar]; omega),
        if_pos hJpar]
      exact hs.asymm hltv
    rcases eq_or_ne k i with rfl | hki
    · -- the old hole i with its own parent
      have hgi : parent k < k := by simp only [parent]; omega
      rw [if_neg hkJ, if_pos rfl, if_neg (by omega : ¬ parent k = J),
        if_neg (by omega : ¬ parent k = k)]
      have := h.below hpos J hJn hJpar
      rw [lessAt_eval hJl hpkl] at this
      exact this
    · rw [if_neg hkJ, if_neg hki]
      rcases eq_or_ne (parent k) i with hpki | hpki
      · -- the sibling of J now looks at the moved-up value
        rw [if_neg hpkJ, if_pos hpki]
        have := hsib k hk hpos hpki hkJ
        rw [lessAt_eval hkl hJl] at this
        exact this
      · -- an edge not touching i or J
        rw [if_neg hpkJ, if_neg hpki]
        have hedge := h.edges k hk hpos hpki
        rw [lessAt_eval hkl hpkl] at hedge
        exact hedge
  · -- children of the new hole J are ordered against i
    intro hJpos c hc hpc
    have hcl : c < l.length := by omega
    have hcS : c < (Swap l i J).length := by simpa using hcl
    have hcJ : J < c := by simp only [parent] at hpc; omega
    have hpJS : parent J < (Swap l i J).length := by
      rw [length_Swap, hJpar]; omega
    have hpJl : parent J < l.length := by
      rw [hJpar]; omega
    rw [lessAt_eval hcS hpJS, getElem_Swap_value hil hJl hcS hcl,
      getElem_Swap_value hil hJl hpJS hpJl,
      if_neg (by omega : ¬ c = J), if_neg (by omega : ¬ c = i),
      if_neg (show ¬ parent J = J by omega), if_pos hJpar]
    have hedge := h.edges c hc (by omega) (by rw [hpc]; omega)
    rw [hpc, lessAt_eval hcl hJl] at hedge
    exact hedge

theorem downAux_restores (hs : IsSWO less) (l : List (Item α)) (i n : Nat)
    (h : DownInv less l i n) : heapPropN less (downAux less l i n).1 n := by
  induction l, i, n using downAux.induct less with
  | case1 l i n hno =>
    rw [downAux.eq_def]
    simp only [if_pos hno]
    intro k hk hpos
    rcases eq_or_ne (parent k) i with hpki | hpki
    · exfalso
      simp only [parent] at hpki
      omega
    · exact h.edges k hk hpos hpki
  | case2 l i n hno j1 j2 j hlt ih =>
    simp only [j, j2, j1, dite_eq_ite] at hlt ih
    rw [downAux.eq_def]
    simp only [if_neg hno, hlt, if_true]
    apply ih
    by_cases hc : 2 * i + 2 < n ∧ lessAt less l (2 * i + 2) (2 * i + 1) = true
    · -- the right child was selected
      rw [if_pos hc] at hlt ⊢
      refine DownInv_step hs h hc.1 (by simp only [parent]; omega) (by omega)
        ?_ hlt
      intro c hcn hcpos hcpar hcne
      have hceq : c = 2 * i + 1 := by simp only [parent] at hcpar; omega
      subst hceq
      have h1l : 2 * i + 1 < l.length := by
        have := h.hn
        omega
      have h2l : 2 * i + 2 < l.length := by
        have := h.hn
        omega
      have := hs.asymm (show less l[2 * i + 2].value l[2 * i + 1].value = true by
        have hq := hc.2
        rw [lessAt_eval h2l h1l] at hq
        exact hq)
      rw [lessAt_eval h1l h2l]
      exact this
    · -- the left child was selected
      rw [if_neg hc] at hlt ⊢
      refine DownInv_step hs h (by omega) (by simp only [parent]; omega)
        (by omega) ?_ hlt
      intro c hcn hcpos hcpar hcne
      have hceq : c = 2 * i + 2 := by simp only [parent] at hcpar; omega
      subst hceq
      have hq : lessAt less l (2 * i + 2) (2 * i + 1) = false := by
        by_contra hq2
        rw [Bool.not_eq_false] at hq2
        exact hc ⟨hcn, hq2⟩
      exact hq
  | case3 l i n hno j1 j2 j hnlt =>
    simp only [j, j2, j1, dite_eq_ite] at hnlt
    rw [downAux.eq_def]
    simp only [if_neg hno]
    rw [if_neg hnlt]
    intro k hk hpos
    rcases eq_or_ne (parent k) i with hpki | hpki
    swap
    · exact h.edges k hk hpos hpki
    have hk12 : k = 2 * i + 1 ∨ k = 2 * i + 2 := by
      simp only [parent] at hpki
      omega
    have hn := h.hn
    have hil : i < l.length := by omega
    have h1l : 2 * i + 1 < l.length := by omega
    have hp1 : parent (2 * i + 1) = i := by simp only [parent]; omega
    have hp2 : parent (2 * i + 2) = i := by simp only [parent]; omega
    by_cases hc : 2 * i + 2 < n ∧ lessAt less l (2 * i + 2) (2 * i + 1) = true
    · rw [if_pos hc] at hnlt
      rw [Bool.not_eq_true] at hnlt
      have h2l : 2 * i + 2 < l.length := by omega
      have h2v : less l[2 * i + 2].value l[i].value = false := by
        rw [lessAt_eval h2l hil] at hnlt
        exact hnlt
      have h21 : less l[2 * i + 2].value l[2 * i + 1].value = true := by
        have hq := hc.2
        rw [lessAt_eval h2l h1l] at hq
        exact hq
      rcases hk12 with rfl | rfl
      · rw [hp1, lessAt_eval h1l hil]
        exact hs.nlt_of_lt_of_nlt h21 h2v
      · rw [hp2, lessAt_eval h2l hil]
        exact h2v
    · rw [if_neg hc] at hnlt
      rw [Bool.not_eq_true] at hnlt
      have h1v : less l[2 * i + 1].value l[i].value = false := by
        rw [lessAt_eval h1l hil] at hnlt
        exact hnlt
      rcases hk12 with rfl | rfl
      · rw [hp1, lessAt_eval h1l hil]
        exact h1v
      · have h2n : 2 * i + 2 < n := hk
        have h2l : 2 * i + 2 < l.length := by omega
        have h21 : less l[2 * i + 2].value l[2 * i + 1].value = false := by
          have hq : lessAt less l (2 * i + 2) (2 * i + 1) = false := by
            by_contra hq2
            rw [Bool.not_eq_false] at hq2
            exact hc ⟨h2n, hq2⟩
          rw [lessAt_eval h2l h1l] at hq
          exact hq
        rw [hp2, lessAt_eval h2l hil]
        exact hs.nlt_trans _ _ _ h21 h1v

/-- Every position of a heap is not `less` than the root. -/
theorem heapPropN_root_min (hs : IsSWO less) {l : List (Item α)} {n : Nat}
    (hh : heapPropN less l n) (hn : n ≤ l.length) :
    ∀ k, k < n → lessAt less l k 0 = false := by
  intro k
  induction k using Nat.strongRecOn with
  | ind k ih =>
    intro hk
    rcases Nat.eq_zero_or_pos k with rfl | hpos
    · rw [lessAt_eval (by omega) (by omega)]
      exact hs.irrefl _
    · have hpar_lt : parent k < k := by simp only [parent]; omega
      have h1 := hh k hk hpos
      have h2 := ih (parent k) hpar_lt (by omega)
      rw [lessAt_eval (by omega) (by omega)] at h1 h2 ⊢
      exact hs.nlt_trans _ _ _ h1 h2

/-! ### Position-index consistency -/


theorem index_of_getElem? {l : List (Item α)} {k : Nat} {it : Item α}
    (hk : k < l.length) (h : l[k]? = some it) : (l[k]).index = it.index := by
  rw [List.getElem?_eq_getElem hk] at h
  rw [Option.some.inj h]

theorem idxOK_Swap {l : List (Item α)} (h : idxOK l) (i j : Nat) :
    idxOK (Swap l i j) := by
  rcases Nat.lt_or_ge i l.length with hi | hi
  swap
  · rw [Swap_of_oob (Or.inl hi)]; exact h
  rcases Nat.lt_or_ge j l.length with hj | hj
  swap
  · rw [Swap_of_oob (Or.inr hj)]; exact h
  intro k hk
  have hk2 : k < l.length := by simpa using hk
  rcases eq_or_ne k j with rfl | hkj
  · rw [index_of_getElem? hk (getElem?_Swap_right hi hj)]
  rcases eq_or_ne k i with rfl | hki
  · rw [index_of_getElem? hk (getElem?_Swap_left hi hj hkj)]
  · rw [index_of_getElem? hk ((@getElem?_Swap_of_ne α l i j k hki hkj).trans
      (List.getElem?_eq_getElem hk2))]
    exact h k hk2

theorem idxOK_up (h : idxOK l) (j : Nat) : idxOK (up less l j) := by
  induction l, j using up.induct less with
  | case1 l =>
    rw [up.eq_def]
    simpa using h
  | case2 l j hj i hlt ih =>
    rw [up.eq_def]
    simp only [if_neg hj, hlt, if_true]
    exact ih (idxOK_Swap h i j)
  | case3 l j hj i hnlt =>
    rw [up.eq_def]
    simp only [if_neg hj]
    rw [if_neg hnlt]
    exact h

theorem idxOK_downAux (h : idxOK l) (i n : Nat) : idxOK (downAux less l i n).1 := by
  induction l, i, n using downAux.induct less with
  | case1 l i n hno =>
    rw [downAux.eq_def]
    simp only [if_pos hno]
    exact h
  | case2 l i n hno j1 j2 j hlt ih =>
    simp only [j, j2, j1, dite_eq_ite] at hlt ih
    rw [downAux.eq_def]
    simp only [if_neg hno, hlt, if_true]
    exact ih (idxOK_Swap h i _)
  | case3 l i n hno j1 j2 j hnlt =>
    simp only [j, j2, j1, dite_eq_ite] at hnlt
    rw [downAux.eq_def]
    simp only [if_neg hno]
    rw [if_neg hnlt]
    exact h

theorem idxOK_append_new {l : List (Item α)} (h : idxOK l) (v : α) :
    idxOK (l ++ [⟨v, (l.length : Int)⟩]) := by
  intro k hk
  have hlen : k < l.length + 1 := by simpa using hk
  rcases Nat.lt_or_ge k l.length with hkl | hkl
  · rw [index_of_getElem? hk (show (l ++ [⟨v, (l.length : Int)⟩])[k]?
        = some (l[k]) by
      rw [List.getElem?_append, if_pos hkl]
      exact List.getElem?_eq_getElem hkl)]
    exact h k hkl
  · have hkeq : k = l.length := by omega
    subst hkeq
    rw [index_of_getElem? hk (show (l ++ [⟨v, (l.length : Int)⟩])[l.length]?
        = some ⟨v, (l.length : Int)⟩ by
      rw [List.getElem?_append, if_neg (by omega)]
      simp)]

theorem idxOK_dropLast {l : List (Item α)} (h : idxOK l) : idxOK l.dropLast := by
  intro k hk
  have hk2 : k < l.length - 1 := by simpa using hk
  rw [index_of_getElem? hk (by
    rw [List.getElem?_dropLast, if_pos hk2]
    exact List.getElem?_eq_getElem (by omega))]
  exact h k (by omega)

/-! ### Transport of lessAt across list surgery -/

theorem lessAt_append {l : List (Item α)} {x : Item α} {a b : Nat}
    (ha : a < l.length) (hb : b < l.length) :
    lessAt less (l ++ [x]) a b = lessAt less l a b := by
  unfold lessAt
  rw [List.getElem?_append, if_pos ha, List.getElem?_append, if_pos hb]

theorem lessAt_set_of_ne {l : List (Item α)} {it : Item α} {k a b : Nat}
    (ha : a ≠ k) (hb : b ≠ k) :
    lessAt less (l.set k it) a b = lessAt less l a b := by
  unfold lessAt
  rw [List.getElem?_set_ne (Ne.symm ha), List.getElem?_set_ne (Ne.symm hb)]

theorem lessAt_Swap_of_ne {l : List (Item α)} {i j a b : Nat} (ha1 : a ≠ i)
    (ha2 : a ≠ j) (hb1 : b ≠ i) (hb2 : b ≠ j) :
    lessAt less (Swap l i j) a b = lessAt less l a b := by
  unfold lessAt
  rw [getElem?_Swap_of_ne ha1 ha2, getElem?_Swap_of_ne hb1 hb2]

theorem lessAt_dropLast {l : List (Item α)} {a b : Nat} (ha : a < l.length - 1)
    (hb : b < l.length - 1) :
    lessAt less l.dropLast a b = lessAt less l a b := by
  unfold lessAt
  rw [List.getElem?_dropLast, if_pos ha, List.getElem?_dropLast, if_pos hb]

/-! ### heap.Push level lemmas -/

theorem length_PushItem (less : α → α → Bool) (l : List (Item α)) (x : Item α) :
    (PushItem less l x).length = l.length + 1 := by
  unfold PushItem
  rw [length_up]
  simp

theorem vals_PushItem (less : α → α → Bool) (l : List (Item α)) (x : Item α) :
    (((PushItem less l x).map Item.value : List α) : Multiset α)
      = ((l.map Item.value : List α) : Multiset α) + {x.value} := by
  unfold PushItem
  rw [vals_up]
  simp only [List.map_append, List.map_cons, List.map_nil]
  rw [← Multiset.coe_singleton, ← Multiset.coe_add]

theorem heapPropN_PushItem (hs : IsSWO less) {l : List (Item α)} (x : Item α)
    (hh : heapPropN less l l.length) :
    heapPropN less (PushItem less l x) (l.length + 1) := by
  unfold PushItem
  apply up_restores hs
  refine ⟨by simp, by omega, ?_, ?_⟩
  · intro k hk hpos hkne
    have hkl : k < l.length := by omega
    have hpkl : parent k < l.length := by simp only [parent] at *; omega
    rw [lessAt_append hkl hpkl]
    exact hh k hkl hpos
  · intro hpos c hc hpc
    exfalso
    simp only [parent] at hpc
    omega

theorem idxOK_PushItem {l : List (Item α)} (h : idxOK l) (x : Item α) :
    idxOK (PushItem less l x) :=
  idxOK_up (idxOK_append_new h x.value) _

/-! ### heap.Pop level lemmas -/

theorem PopLast_fst_index {l : List (Item α)} {it : Item α}
    (h : (PopLast l).1 = some it) : it.index = -1 := by
  unfold PopLast at h
  split at h
  · rw [← Option.some.inj h]
  · cases h

theorem idxOK_PopLast_snd {l : List (Item α)} (h : idxOK l) :
    idxOK (PopLast l).2 := by
  unfold PopLast
  split
  · exact idxOK_dropLast h
  · exact h

theorem PopLast_eq_of_getLast? {l : List (Item α)} {it : Item α}
    (h : l.getLast? = some it) :
    PopLast l = (some ⟨it.value, -1⟩, l.dropLast) := by
  unfold PopLast
  rw [h]

theorem PopTop_fst (less : α → α → Bool) {l : List (Item α)}
    (hpos : 0 < l.length) :
    (PopTop less l).1 = some ⟨(l[0]).value, -1⟩ := by
  simp only [PopTop]
  have hlen2 : (downAux less (Swap l 0 (l.length - 1)) 0 (l.length - 1)).1.length
      = l.length := by
    rw [length_downAux, length_Swap]
  have h1 : (downAux less (Swap l 0 (l.length - 1)) 0 (l.length - 1)).1[l.length - 1]?
      = some ⟨(l[0]).value, ((l.length - 1 : Nat) : Int)⟩ := by
    rw [getElem?_downAux_of_ge less _ 0 (l.length - 1) (l.length - 1) (le_refl _)]
    exact getElem?_Swap_right hpos (by omega)
  have hgl : (downAux less (Swap l 0 (l.length - 1)) 0 (l.length - 1)).1.getLast?
      = some ⟨(l[0]).value, ((l.length - 1 : Nat) : Int)⟩ := by
    rw [List.getLast?_eq_getElem?, hlen2]
    exact h1
  rw [PopLast_eq_of_getLast? hgl]

theorem PopTop_snd (less : α → α → Bool) {l : List (Item α)}
    (hpos : 0 < l.length) :
    (PopTop less l).2
      = (downAux less (Swap l 0 (l.length - 1)) 0 (l.length - 1)).1.dropLast := by
  simp only [PopTop]
  have hlen2 : (downAux less (Swap l 0 (l.length - 1)) 0 (l.length - 1)).1.length
      = l.length := by
    rw [length_downAux, length_Swap]
  have h1 : (downAux less (Swap l 0 (l.length - 1)) 0 (l.length - 1)).1[l.length - 1]?
      = some ⟨(l[0]).value, ((l.length - 1 : Nat) : Int)⟩ := by
    rw [getElem?_downAux_of_ge less _ 0 (l.length - 1) (l.length - 1) (le_refl _)]
    exact getElem?_Swap_right hpos (by omega)
  have hgl : (downAux less (Swap l 0 (l.length - 1)) 0 (l.length - 1)).1.getLast?
      = some ⟨(l[0]).value, ((l.length - 1 : Nat) : Int)⟩ := by
    rw [List.getLast?_eq_getElem?, hlen2]
    exact h1
  rw [PopLast_eq_of_getLast? hgl]

theorem length_PopTop_snd (less : α → α → Bool) {l : List (Item α)}
    (hpos : 0 < l.length) : (PopTop less l).2.length = l.length - 1 := by
  rw [PopTop_snd less hpos, List.length_dropLast, length_downAux, length_Swap]

theorem vals_PopTop (less : α → α → Bool) {l : List (Item α)}
    (hpos : 0 < l.length) :
    (((PopTop less l).2.map Item.value : List α) : Multiset α) + {(l[0]).value}
      = ((l.map Item.value : List α) : Multiset α) := by
  rw [PopTop_snd less hpos]
  have hlen2 : (downAux less (Swap l 0 (l.length - 1)) 0 (l.length - 1)).1.length
      = l.length := by
    rw [length_downAux, length_Swap]
  have hvals : (((downAux less (Swap l 0 (l.length - 1)) 0 (l.length - 1)).1.map
        Item.value : List α) : Multiset α)
      = ((l.map Item.value : List α) : Multiset α) := by
    rw [vals_downAux, vals_Swap]
  have hval_last : ((downAux less (Swap l 0 (l.length - 1)) 0
        (l.length - 1)).1.map Item.value)[l.length - 1]?
      = some (l[0]).value := by
    rw [List.getElem?_map]
    rw [getElem?_downAux_of_ge less _ 0 (l.length - 1) (l.length - 1) (le_refl _)]
    rw [getElem?_Swap_right hpos (by omega)]
    rfl
  have hmap_len : ((downAux less (Swap l 0 (l.length - 1)) 0
        (l.length - 1)).1.map Item.value).length = l.length := by
    rw [List.length_map, hlen2]
  have hdl : ((downAux less (Swap l 0 (l.length - 1)) 0
        (l.length - 1)).1.dropLast.map Item.value)
      = ((downAux less (Swap l 0 (l.length - 1)) 0
        (l.length - 1)).1.map Item.value).dropLast := by
    rw [List.map_dropLast]
  rw [hdl]
  have hx : l.length - 1 + 1 = ((downAux less (Swap l 0 (l.length - 1)) 0
      (l.length - 1)).1.map Item.value).length := by
    rw [hmap_len]
    omega
  rw [List.dropLast_eq_eraseIdx hx]
  have hb : l.length - 1 < ((downAux less (Swap l 0 (l.length - 1)) 0
      (l.length - 1)).1.map Item.value).length := by
    rw [hmap_len]
    omega
  have := coe_eraseIdx_add ((downAux less (Swap l 0 (l.length - 1)) 0
      (l.length - 1)).1.map Item.value) (l.length - 1) hb
  have hgeq : ((downAux less (Swap l 0 (l.length - 1)) 0
        (l.length - 1)).1.map Item.value)[l.length - 1]
      = (l[0]).value := by
    have h2 := hval_last
    rw [List.getElem?_eq_getElem hb] at h2
    exact Option.some.inj h2
  rw [hgeq] at this
  rw [this, hvals]

theorem heapPropN_PopTop (hs : IsSWO less) {l : List (Item α)}
    (hh : heapPropN less l l.length) (hpos : 0 < l.length) :
    heapPropN less (PopTop less l).2 (l.length - 1) := by
  rw [PopTop_snd less hpos]
  have hlen2 : (downAux less (Swap l 0 (l.length - 1)) 0 (l.length - 1)).1.length
      = l.length := by
    rw [length_downAux, length_Swap]
  have hrest : heapPropN less (downAux less (Swap l 0 (l.length - 1)) 0
      (l.length - 1)).1 (l.length - 1) := by
    apply downAux_restores hs
    refine ⟨by rw [length_Swap]; omega, ?_, ?_⟩
    · intro k hk hkpos hpk
      have hpk_le : parent k ≤ k := by simp only [parent]; omega
      rw [lessAt_Swap_of_ne (by omega) (by omega) hpk (by omega)]
      exact hh k (by omega) hkpos
    · intro hfalse
      exact absurd hfalse (by omega)
  intro k hk hkpos
  have hpk_le : parent k ≤ k := by simp only [parent]; omega
  rw [lessAt_dropLast (by omega) (by omega)]
  exact hrest k hk hkpos

theorem idxOK_PopTop_snd {l : List (Item α)} (h : idxOK l) :
    idxOK (PopTop less l).2 := by
  unfold PopTop
  exact idxOK_PopLast_snd (idxOK_downAux (idxOK_Swap h 0 (l.length - 1)) 0
    (l.length - 1))

/-! ### heap.Fix and heap.Remove level lemmas -/


theorem Fix_eq_fixAtN (less : α → α → Bool) (l : List (Item α)) (i : Nat) :
    Fix less l i = fixAtN less l i l.length := rfl

theorem up_eq_self {l : List (Item α)} {i : Nat}
    (h : i = 0 ∨ lessAt less l i (parent i) = false) : up less l i = l := by
  rw [up.eq_def]
  by_cases h0 : i = 0
  · rw [if_pos h0]
  · rcases h with h | h
    · exact absurd h h0
    · rw [if_neg h0, if_neg (by rw [h]; simp)]

theorem length_fixAtN (less : α → α → Bool) (l : List (Item α)) (i n : Nat) :
    (fixAtN less l i n).length = l.length := by
  unfold fixAtN
  by_cases hm : i < (downAux less l i n).2
  · rw [if_pos hm, length_downAux]
  · rw [if_neg hm, length_up, length_downAux]

theorem vals_fixAtN (less : α → α → Bool) (l : List (Item α)) (i n : Nat) :
    (((fixAtN less l i n).map Item.value : List α) : Multiset α)
      = ((l.map Item.value : List α) : Multiset α) := by
  unfold fixAtN
  by_cases hm : i < (downAux less l i n).2
  · rw [if_pos hm, vals_downAux]
  · rw [if_neg hm, vals_up, vals_downAux]

theorem idxOK_fixAtN {l : List (Item α)} (h : idxOK l) (i n : Nat) :
    idxOK (fixAtN less l i n) := by
  unfold fixAtN
  by_cases hm : i < (downAux less l i n).2
  · rw [if_pos hm]
    exact idxOK_downAux h i n
  · rw [if_neg hm]
    exact idxOK_up (idxOK_downAux h i n) i

/-- Sifting up from `i` does not touch positions above `i`, hence none at or
above `n` when `i < n`. -/
theorem getElem?_fixAtN_of_ge (less : α → α → Bool) (l : List (Item α))
    {i n k : Nat} (hi : i < n) (hk : n ≤ k) :
    (fixAtN less l i n)[k]? = l[k]? := by
  unfold fixAtN
  by_cases hm : i < (downAux less l i n).2
  · rw [if_pos hm, getElem?_downAux_of_ge less l i n k hk]
  · rw [if_neg hm, getElem?_up_of_gt less _ i k (by omega),
      getElem?_downAux_of_ge less l i n k hk]

/-- Fix-up correctness: when every parent edge not incident to `i` is
ordered and the children of `i` are bounded by the parent of `i`, the
down-then-up fix restores the heap invariant on `[0, n)`. -/
theorem fixAtN_core (hs : IsSWO less) {l : List (Item α)} {i n : Nat}
    (hn : n ≤ l.length) (hi : i < n)
    (edges : ∀ k, k < n → 0 < k → k ≠ i → parent k ≠ i →
      lessAt less l k (parent k) = false)
    (below : 0 < i → ∀ c, c < n → parent c = i →
      lessAt less l c (parent i) = false) :
    heapPropN less (fixAtN less l i n) n := by
  by_cases hviol : 0 < i ∧ lessAt less l i (parent i) = true
  · obtain ⟨hipos, hlt⟩ := hviol
    have hil : i < l.length := by omega
    have hpil : parent i < l.length := by simp only [parent] at *; omega
    have hltv : less l[i].value l[parent i].value = true := by
      rw [lessAt_eval hil hpil] at hlt
      exact hlt
    have hchild : ∀ c, c < n → parent c = i → 0 < c →
        lessAt less l c i = false := by
      intro c hc hpc hcpos
      have hbel := below hipos c hc hpc
      have hcl : c < l.length := by omega
      rw [lessAt_eval hcl hpil] at hbel
      rw [lessAt_eval hcl hil]
      exact hs.nlt_of_nlt_of_lt hbel hltv
    have hds := downAux_eq_self less l i n hchild
    unfold fixAtN
    rw [hds, if_neg (lt_irrefl i)]
    apply up_restores hs
    refine ⟨hn, hi, ?_, below⟩
    intro k hk hkpos hkne
    by_cases hpk : parent k = i
    · have := hchild k hk hpk hkpos
      rw [hpk]
      exact this
    · exact edges k hk hkpos hkne hpk
  · have hnov : i = 0 ∨ lessAt less l i (parent i) = false := by
      by_cases h0 : i = 0
      · exact Or.inl h0
      · right
        by_contra hq
        rw [Bool.not_eq_false] at hq
        exact hviol ⟨by omega, hq⟩
    have hDI : DownInv less l i n := by
      refine ⟨hn, ?_, below⟩
      intro k hk hkpos hpk
      rcases eq_or_ne k i with rfl | hki
      · rcases hnov with h0 | hnlt
        · omega
        · exact hnlt
      · exact edges k hk hkpos hki hpk
    have hres := downAux_restores hs l i n hDI
    unfold fixAtN
    by_cases hm : i < (downAux less l i n).2
    · rw [if_pos hm]
      exact hres
    · rw [if_neg hm]
      have hfst := downAux_fst_of_not_moved less l i n hm
      rw [hfst, up_eq_self hnov]
      rw [hfst] at hres
      exact hres

/-- A single external mutation of one stored value, followed by the
down-then-up fix at its position, restores the heap invariant. -/
theorem fixAtN_set (hs : IsSWO less) {l0 : List (Item α)} {k n : Nat}
    (it : Item α) (hh : heapPropN less l0 n) (hn : n ≤ l0.length) (hk : k < n) :
    heapPropN less (fixAtN less (l0.set k it) k n) n := by
  apply fixAtN_core hs (by rw [List.length_set]; exact hn) hk
  · intro q hq hqpos hqne hpq
    rw [lessAt_set_of_ne hqne hpq]
    exact hh q hq hqpos
  · intro hkpos c hc hpc
    have hcgt : k < c := by simp only [parent] at hpc; omega
    have hpkne : parent k ≠ k := by simp only [parent]; omega
    rw [lessAt_set_of_ne (by omega) hpkne]
    have hcl : c < l0.length := by omega
    have hkl : k < l0.length := by omega
    have hpkl : parent k < l0.length := by simp only [parent] at *; omega
    have h1 := hh c hc (by omega)
    rw [hpc] at h1
    have h2 := hh k hk hkpos
    rw [lessAt_eval hcl hkl] at h1
    rw [lessAt_eval hkl hpkl] at h2
    rw [lessAt_eval hcl hpkl]
    exact hs.nlt_trans _ _ _ h1 h2

/-! ### The spec's reference fix-up and its equivalence with heap.Fix -/


theorem upMoved_fst (less : α → α → Bool) (l : List (Item α)) (j : Nat) :
    (upMoved less l j).1 = up less l j := by
  induction l, j using upMoved.induct less with
  | case1 l =>
    rw [upMoved.eq_def, up.eq_def]
    simp
  | case2 l j hj i hlt ih =>
    rw [upMoved.eq_def, up.eq_def]
    simp only [if_neg hj, hlt, if_true]
    exact ih
  | case3 l j hj i hnlt =>
    rw [upMoved.eq_def, up.eq_def]
    simp only [if_neg hj]
    rw [if_neg hnlt, if_neg hnlt]

theorem upMoved_of_zero (less : α → α → Bool) (l : List (Item α)) :
    upMoved less l 0 = (l, false) := by
  rw [upMoved.eq_def]
  simp

theorem upMoved_of_stop {l : List (Item α)} {j : Nat}
    (h : lessAt less l j (parent j) = false) : upMoved less l j = (l, false) := by
  rw [upMoved.eq_def]
  by_cases h0 : j = 0
  · rw [if_pos h0]
  · rw [if_neg h0, if_neg (by rw [h]; simp)]

theorem upMoved_snd_of_lt {l : List (Item α)} {j : Nat} (h0 : j ≠ 0)
    (h : lessAt less l j (parent j) = true) : (upMoved less l j).2 = true := by
  rw [upMoved.eq_def]
  rw [if_neg h0, if_pos h]

theorem lessAt_set_left {l0 : List (Item α)} {it : Item α} {k b : Nat}
    (hk : k < l0.length) (hb : b < l0.length) (hbk : b ≠ k) :
    lessAt less (l0.set k it) k b = less it.value (l0[b]).value := by
  unfold lessAt
  rw [getElem?_set_self_of_lt _ _ _ hk, List.getElem?_set_ne (Ne.symm hbk),
    List.getElem?_eq_getElem hb]

theorem lessAt_set_right {l0 : List (Item α)} {it : Item α} {k a : Nat}
    (hk : k < l0.length) (ha : a < l0.length) (hak : a ≠ k) :
    lessAt less (l0.set k it) a k = less (l0[a]).value it.value := by
  unfold lessAt
  rw [getElem?_set_self_of_lt _ _ _ hk, List.getElem?_set_ne (Ne.symm hak),
    List.getElem?_eq_getElem ha]

/-- After externally overwriting position `k` of a heap, an upward violation
at `k` forces the first step of the down-sift to stop. -/
theorem set_children_nlt (hs : IsSWO less) {l0 : List (Item α)} {k n : Nat}
    {it : Item α} (hh : heapPropN less l0 n) (hn : n ≤ l0.length) (hk : k < n)
    (hk0 : k ≠ 0)
    (hviol : lessAt less (l0.set k it) k (parent k) = true) :
    ∀ c, c < n → parent c = k → 0 < c →
      lessAt less (l0.set k it) c k = false := by
  intro c hc hpc hcpos
  have hcl : c < l0.length := by omega
  have hkl : k < l0.length := by omega
  have hpkl : parent k < l0.length := by simp only [parent] at *; omega
  have hpkk : parent k ≠ k := by simp only [parent]; omega
  have hck : c ≠ k := by simp only [parent] at hpc; omega
  rw [lessAt_set_left hkl hpkl hpkk] at hviol
  rw [lessAt_set_right hkl hcl hck]
  have h1 := hh c hc hcpos
  rw [hpc] at h1
  have h2 := hh k hk (by omega)
  rw [lessAt_eval hcl hkl] at h1
  rw [lessAt_eval hkl hpkl] at h2
  have hchain := hs.nlt_trans _ _ _ h1 h2
  exact hs.nlt_of_nlt_of_lt hchain hviol

/-- On the single-mutation domain of `UpdateItem`, Go's down-then-up `Fix`
agrees with the spec's up-then-down reference fix-up. -/
theorem fix_eq_fixUpFirst (hs : IsSWO less) {l0 : List (Item α)} {k : Nat}
    (it : Item α) (hh : heapPropN less l0 l0.length) (hk : k < l0.length) :
    Fix less (l0.set k it) k = FixUpFirst less (l0.set k it) k := by
  have hlen : (l0.set k it).length = l0.length := by rw [List.length_set]
  by_cases h0 : k = 0
  · subst h0
    rw [Fix, FixUpFirst, upMoved_of_zero]
    simp only [Bool.false_eq_true, if_false]
    by_cases hm : 0 < (downAux less (l0.set 0 it) 0 (l0.set 0 it).length).2
    · rw [if_pos hm]
    · rw [if_neg hm]
      have hfst := downAux_fst_of_not_moved less (l0.set 0 it) 0
        (l0.set 0 it).length hm
      rw [hfst, up_eq_self (Or.inl rfl)]
  · by_cases hviol : lessAt less (l0.set k it) k (parent k) = true
    · have hchild := set_children_nlt hs hh (le_refl _) hk h0 hviol
      have hds := downAux_eq_self less (l0.set k it) k (l0.set k it).length
        (by
          rw [hlen]
          exact hchild)
      rw [Fix, hds, if_neg (lt_irrefl k), FixUpFirst,
        upMoved_snd_of_lt h0 hviol]
      simp only [if_true]
      rw [upMoved_fst]
    · have hnlt : lessAt less (l0.set k it) k (parent k) = false := by
        rw [← Bool.not_eq_true]
        exact hviol
      rw [FixUpFirst, upMoved_of_stop hnlt]
      simp only [Bool.false_eq_true, if_false]
      rw [Fix]
      by_cases hm : k < (downAux less (l0.set k it) k (l0.set k it).length).2
      · rw [if_pos hm]
      · rw [if_neg hm]
        have hfst := downAux_fst_of_not_moved less (l0.set k it) k
          (l0.set k it).length hm
        rw [hfst, up_eq_self (Or.inr hnlt)]

/-! ### A strictly minimal value sifts to the root -/

theorem up_strict_min (less : α → α → Bool) (l : List (Item α)) (k : Nat)
    (hk : k < l.length)
    (hmin : ∀ m, ∀ hm : m < l.length, m ≠ k →
      less ((l[k]).value) ((l[m]).value) = true) :
    ((up less l k)[0]?).map Item.value = some ((l[k]).value) := by
  induction l, k using up.induct less with
  | case1 l =>
    rw [up.eq_def, if_pos rfl, List.getElem?_eq_getElem hk]
    rfl
  | case2 l j hj i hlt ih =>
    rw [up.eq_def]
    simp only [if_neg hj, hlt, if_true]
    have hij : i < j := by simp only [i, parent]; omega
    have hil : i < l.length := by omega
    have hiS : i < (Swap l i j).length := by simpa using hil
    have hSi : (Swap l i j)[i]? = some ⟨l[j].value, (i : Int)⟩ :=
      getElem?_Swap_left hil hk (by omega)
    have hSival : ((Swap l i j)[i]).value = (l[j]).value := by
      rw [List.getElem?_eq_getElem hiS] at hSi
      rw [Option.some.inj hSi]
    have hres := ih hiS (by
      intro m hm hmi
      have hml : m < l.length := by simpa using hm
      rw [hSival, getElem_Swap_value hil hk hm hml]
      rcases eq_or_ne m j with rfl | hmj
      · rw [if_pos rfl]
        exact hmin i hil (by omega)
      · rw [if_neg hmj, if_neg hmi]
        exact hmin m hml hmj)
    rw [hres, hSival]
  | case3 l j hj i hnlt =>
    exfalso
    have hij : i < j := by simp only [i, parent]; omega
    have hil : i < l.length := by omega
    have := hmin i hil (by omega)
    rw [lessAt_eval hk hil] at hnlt
    exact hnlt this

/-- Fixing a position whose value is strictly `less` than every other stored
value brings that value to the root. -/
theorem fix_strict_min (hasym : ∀ a b : α, less a b = true → less b a = false)
    {l : List (Item α)} {k : Nat} (hk : k < l.length)
    (hmin : ∀ m, ∀ hm : m < l.length, m ≠ k →
      less ((l[k]).value) ((l[m]).value) = true) :
    ((Fix less l k)[0]?).map Item.value = some ((l[k]).value) := by
  have hchild : ∀ c, c < l.length → parent c = k → 0 < c →
      lessAt less l c k = false := by
    intro c hc hpc hcpos
    have hck : c ≠ k := by simp only [parent] at hpc; omega
    rw [lessAt_eval hc hk]
    exact hasym _ _ (hmin c hc hck)
  have hds := downAux_eq_self less l k l.length hchild
  rw [Fix_eq_fixAtN]
  unfold fixAtN
  rw [hds, if_neg (lt_irrefl k)]
  exact up_strict_min less l k hk hmin

/-! ### heap.Remove level lemmas -/

theorem PopLast_snd_of_pos {l : List (Item α)} (hpos : 0 < l.length) :
    (PopLast l).2 = l.dropLast := by
  have hg : l.getLast? = some (l[l.length - 1]) := by
    rw [List.getLast?_eq_getElem?]
    exact List.getElem?_eq_getElem (by omega)
  rw [PopLast_eq_of_getLast? hg]

theorem vals_dropLast {l : List (Item α)} (hpos : 0 < l.length) :
    ((l.dropLast.map Item.value : List α) : Multiset α)
        + {(l[l.length - 1]).value}
      = ((l.map Item.value : List α) : Multiset α) := by
  rw [List.map_dropLast]
  have hx : l.length - 1 + 1 = (l.map Item.value).length := by
    rw [List.length_map]
    omega
  rw [List.dropLast_eq_eraseIdx hx]
  have hb : l.length - 1 < (l.map Item.value).length := by
    rw [List.length_map]
    omega
  have h2 := coe_eraseIdx_add (l.map Item.value) (l.length - 1) hb
  have hg : (l.map Item.value)[l.length - 1]
      = (l[l.length - 1]).value := List.getElem_map _
  rw [hg] at h2
  exact h2

theorem heapPropN_dropLast {l : List (Item α)}
    (hh : heapPropN less l l.length) :
    heapPropN less l.dropLast (l.length - 1) := by
  intro k hk hkpos
  have hpk_le : parent k ≤ k := by simp only [parent]; omega
  rw [lessAt_dropLast (by omega) (by omega)]
  exact hh k (by omega) hkpos

theorem RemoveAt_eq_last {l : List (Item α)} {i : Nat}
    (h : l.length - 1 = i) : RemoveAt less l i = PopLast l := by
  simp only [RemoveAt]
  rw [if_neg (show ¬ l.length - 1 ≠ i from fun hq => hq h)]

theorem RemoveAt_eq_mid (less : α → α → Bool) {l : List (Item α)} {i : Nat}
    (h : l.length - 1 ≠ i) :
    RemoveAt less l i
      = PopLast (fixAtN less (Swap l i (l.length - 1)) i (l.length - 1)) := by
  simp only [RemoveAt, fixAtN]
  rw [if_pos h]

theorem heapPropN_fix_after_swap_last (hs : IsSWO less) {l : List (Item α)}
    {i : Nat} (hh : heapPropN less l l.length) (hin : i < l.length - 1) :
    heapPropN less (fixAtN less (Swap l i (l.length - 1)) i (l.length - 1))
      (l.length - 1) := by
  apply fixAtN_core hs (by rw [length_Swap]; omega) hin
  · intro k hk hkpos hki hpki
    have hpk_le : parent k ≤ k := by simp only [parent]; omega
    rw [lessAt_Swap_of_ne hki (by omega) hpki (by omega)]
    exact hh k (by omega) hkpos
  · intro hipos c hc hpc
    have hcgt : i < c := by simp only [parent] at hpc; omega
    have hpi_lt : parent i < i := by simp only [parent]; omega
    rw [lessAt_Swap_of_ne (by omega) (by omega) (by omega) (by omega)]
    have hcl : c < l.length := by omega
    have hil : i < l.length := by omega
    have hpil : parent i < l.length := by omega
    have h1 := hh c (by omega) (by omega)
    rw [hpc] at h1
    have h2 := hh i (by omega) hipos
    rw [lessAt_eval hcl hil] at h1
    rw [lessAt_eval hil hpil] at h2
    rw [lessAt_eval hcl hpil]
    exact hs.nlt_trans _ _ _ h1 h2

/-- The three observable guarantees of `heap.Remove` at a valid position:
the stored multiset loses exactly the removed value, the length drops by
one, and the remaining items satisfy the heap invariant. -/
theorem RemoveAt_spec (hs : IsSWO less) {l : List (Item α)} {i : Nat}
    (hh : heapPropN less l l.length) (hi : i < l.length) :
    ((((RemoveAt less l i).2.map Item.value : List α) : Multiset α)
          + {(l[i]).value}
        = ((l.map Item.value : List α) : Multiset α))
      ∧ (RemoveAt less l i).2.length = l.length - 1
      ∧ heapPropN less (RemoveAt less l i).2 (l.length - 1) := by
  have hpos : 0 < l.length := by omega
  rcases eq_or_ne (l.length - 1) i with hlast | hmid
  · subst hlast
    rw [RemoveAt_eq_last rfl, PopLast_snd_of_pos hpos]
    refine ⟨vals_dropLast hpos, by rw [List.length_dropLast], ?_⟩
    exact heapPropN_dropLast hh
  · have hin : i < l.length - 1 := by omega
    rw [RemoveAt_eq_mid less hmid]
    have hlenL : (fixAtN less (Swap l i (l.length - 1)) i
        (l.length - 1)).length = l.length := by
      rw [length_fixAtN, length_Swap]
    have hposL : 0 < (fixAtN less (Swap l i (l.length - 1)) i
        (l.length - 1)).length := by omega
    have hL_last : (fixAtN less (Swap l i (l.length - 1)) i
        (l.length - 1))[l.length - 1]?
        = some ⟨(l[i]).value, ((l.length - 1 : Nat) : Int)⟩ := by
      rw [getElem?_fixAtN_of_ge less _ hin (le_refl _)]
      exact getElem?_Swap_right hi (by omega)
    have hLv : ((fixAtN less (Swap l i (l.length - 1)) i
        (l.length - 1))[(fixAtN less (Swap l i (l.length - 1)) i
        (l.length - 1)).length - 1]).value = (l[i]).value := by
      have h2 := hL_last
      rw [List.getElem?_eq_getElem (by omega : l.length - 1 < (fixAtN less
        (Swap l i (l.length - 1)) i (l.length - 1)).length)] at h2
      have h3 := Option.some.inj h2
      have h4 : (fixAtN less (Swap l i (l.length - 1)) i
          (l.length - 1)).length - 1 = l.length - 1 := by omega
      rw [show ((fixAtN less (Swap l i (l.length - 1)) i
          (l.length - 1))[(fixAtN less (Swap l i (l.length - 1)) i
          (l.length - 1)).length - 1])
        = ((fixAtN less (Swap l i (l.length - 1)) i
          (l.length - 1))[l.length - 1]) from by
        congr 1]
      rw [h3]
    rw [PopLast_snd_of_pos hposL]
    have hvalsL : (((fixAtN less (Swap l i (l.length - 1)) i
        (l.length - 1)).map Item.value : List α) : Multiset α)
        = ((l.map Item.value : List α) : Multiset α) := by
      rw [vals_fixAtN, vals_Swap]
    refine ⟨?_, ?_, ?_⟩
    · have := vals_dropLast hposL
      rw [hLv, hvalsL] at this
      exact this
    · rw [List.length_dropLast, hlenL]
    · have hfix := heapPropN_fix_after_swap_last hs hh hin
      intro k hk hkpos
      have hpk_le : parent k ≤ k := by simp only [parent]; omega
      rw [lessAt_dropLast (by omega) (by omega)]
      exact hfix k hk hkpos

theorem RemoveAt_last_shrink {l : List (Item α)} {i : Nat}
    (h : l.length - 1 = i) (hpos : 0 < l.length) :
    (RemoveAt less l i).2 = l.dropLast := by
  rw [RemoveAt_eq_last h, PopLast_snd_of_pos hpos]

theorem idxOK_RemoveAt_snd {l : List (Item α)} (h : idxOK l) (i : Nat) :
    idxOK (RemoveAt less l i).2 := by
  rcases eq_or_ne (l.length - 1) i with hlast | hmid
  · rw [RemoveAt_eq_last hlast]
    exact idxOK_PopLast_snd h
  · rw [RemoveAt_eq_mid less hmid]
    exact idxOK_PopLast_snd (idxOK_fixAtN (idxOK_Swap h i (l.length - 1)) i
      (l.length - 1))

theorem RemoveAt_fst_index {l : List (Item α)} {i : Nat} {it : Item α}
    (h : (RemoveAt less l i).1 = some it) : it.index = -1 := by
  rcases eq_or_ne (l.length - 1) i with hlast | hmid
  · rw [RemoveAt_eq_last hlast] at h
    exact PopLast_fst_index h
  · rw [RemoveAt_eq_mid less hmid] at h
    exact PopLast_fst_index h

end goheap

/-! ## The comparator contract -/



theorem ValidCompare.swo {compare : α → α → Int} (hv : ValidCompare compare)
    (isMax : Bool) : IsSWO (lessFor compare isMax) := by
  cases isMax
  · refine ⟨?_, ?_, ?_⟩
    · intro a
      show decide (compare a a < 0) = false
      refine decide_eq_false ?_
      intro h1
      have := (hv.sign a a).mp h1
      omega
    · intro a b c h1 h2
      have hp1 := of_decide_eq_true (show decide (compare a b < 0) = true from h1)
      have hp2 := of_decide_eq_true (show decide (compare b c < 0) = true from h2)
      show decide (compare a c < 0) = true
      refine decide_eq_true ?_
      by_contra hq
      have hca : compare c a ≤ 0 := by
        have := hv.sign a c
        omega
      have hab : compare a b ≤ 0 := by omega
      have hcb := hv.le_trans c a b hca hab
      have := (hv.sign b c).mp hp2
      omega
    · intro a b c h1 h2
      have hp1 := of_decide_eq_false (show decide (compare a b < 0) = false from h1)
      have hp2 := of_decide_eq_false (show decide (compare b c < 0) = false from h2)
      show decide (compare a c < 0) = false
      refine decide_eq_false ?_
      intro hq
      have hba : compare b a ≤ 0 := by
        have := hv.sign a b
        omega
      have hcb : compare c b ≤ 0 := by
        have := hv.sign b c
        omega
      have hca := hv.le_trans c b a hcb hba
      have := (hv.sign a c).mp hq
      omega
  · refine ⟨?_, ?_, ?_⟩
    · intro a
      show decide (0 < compare a a) = false
      refine decide_eq_false ?_
      intro h1
      have := (hv.sign a a).mpr h1
      omega
    · intro a b c h1 h2
      have hp1 := of_decide_eq_true (show decide (0 < compare a b) = true from h1)
      have hp2 := of_decide_eq_true (show decide (0 < compare b c) = true from h2)
      show decide (0 < compare a c) = true
      refine decide_eq_true ?_
      by_contra hq
      have hac : compare a c ≤ 0 := by omega
      have hcb : compare c b ≤ 0 := by
        have := hv.sign b c
        omega
      have hab := hv.le_trans a c b hac hcb
      omega
    · intro a b c h1 h2
      have hp1 := of_decide_eq_false (show decide (0 < compare a b) = false from h1)
      have hp2 := of_decide_eq_false (show decide (0 < compare b c) = false from h2)
      show decide (0 < compare a c) = false
      refine decide_eq_false ?_
      intro hq
      have hab : compare a b ≤ 0 := by omega
      have hbc : compare b c ≤ 0 := by omega
      have := hv.le_trans a b c hab hbc
      omega

theorem IntCompare_valid : ValidCompare IntCompare := by
  constructor
  · intro a b
    unfold IntCompare
    split_ifs <;> omega
  · intro a b c h1 h2
    unfold IntCompare at *
    split_ifs at * <;> omega

theorem IntCompare_pm1 (a b : Int) :
    IntCompare a b = -1 ∨ IntCompare a b = 0 ∨ IntCompare a b = 1 := by
  unfold IntCompare
  split_ifs <;> omega

theorem wrap64_small {x : Int} (h1 : -(2 ^ 63) ≤ x) (h2 : x < 2 ^ 63) :
    wrap64 x = x := by
  unfold wrap64
  omega

namespace PriorityQueue

variable {α : Type}

theorem lessOf_eq (pq : PriorityQueue α) :
    pq.lessOf = lessFor pq.compare pq.isMaxHeap := rfl

theorem Pop_of_empty (pq : PriorityQueue α) (zero : α)
    (h : pq.items.length = 0) : pq.Pop zero = ((zero, true), pq) := by
  unfold Pop
  rw [if_pos h]

theorem Pop_of_pos (pq : PriorityQueue α) (zero : α)
    (hpos : 0 < pq.items.length) :
    pq.Pop zero = (((pq.items[0]).value, false),
      { pq with items := (goheap.PopTop pq.lessOf pq.items).2 }) := by
  unfold Pop
  rw [if_neg (by omega)]
  rw [show goheap.PopTop pq.lessOf pq.items
      = (some ⟨(pq.items[0]).value, -1⟩,
        (goheap.PopTop pq.lessOf pq.items).2) from by
    rw [← goheap.PopTop_fst pq.lessOf hpos]]

theorem Peek_of_empty (pq : PriorityQueue α) (zero : α)
    (h : pq.items.length = 0) : pq.Peek zero = (zero, true) := by
  unfold Peek
  rw [if_pos h]

theorem Peek_of_pos (pq : PriorityQueue α) (zero : α)
    (hpos : 0 < pq.items.length) :
    pq.Peek zero = ((pq.items[0]).value, false) := by
  unfold Peek
  rw [if_neg (by omega)]
  rw [List.head?_eq_getElem?, List.getElem?_eq_getElem hpos]
  rfl


theorem Reach_invariant {compare : α → α → Int} {isMax : Bool}
    {pq : PriorityQueue α} (hsw : IsSWO (lessFor compare isMax))
    (hr : Reach compare isMax pq) :
    pq.compare = compare ∧ pq.isMaxHeap = isMax
      ∧ goheap.heapPropN (lessFor compare isMax) pq.items pq.items.length
      ∧ goheap.idxOK pq.items := by
  induction hr with
  | newq =>
    refine ⟨rfl, rfl, ?_, ?_⟩
    · intro k hk hkpos
      simp at hk
    · intro k hk
      simp at hk
  | push pq v hr ih =>
    obtain ⟨hc, hm, hh, hidx⟩ := ih
    have hless : pq.lessOf = lessFor compare isMax := by
      rw [lessOf_eq, hc, hm]
    refine ⟨hc, hm, ?_, ?_⟩
    · show goheap.heapPropN (lessFor compare isMax)
        (goheap.PushItem pq.lessOf pq.items (NewItem v))
        (goheap.PushItem pq.lessOf pq.items (NewItem v)).length
      rw [hless, goheap.length_PushItem]
      exact goheap.heapPropN_PushItem hsw _ hh
    · exact goheap.idxOK_PushItem hidx _
  | pop pq zero hr ih =>
    obtain ⟨hc, hm, hh, hidx⟩ := ih
    have hless : pq.lessOf = lessFor compare isMax := by
      rw [lessOf_eq, hc, hm]
    rcases Nat.eq_zero_or_pos pq.items.length with hlen | hlen
    · rw [Pop_of_empty pq zero hlen]
      exact ⟨hc, hm, hh, hidx⟩
    · rw [Pop_of_pos pq zero hlen]
      refine ⟨hc, hm, ?_, ?_⟩
      · show goheap.heapPropN (lessFor compare isMax)
          (goheap.PopTop pq.lessOf pq.items).2
          (goheap.PopTop pq.lessOf pq.items).2.length
        rw [hless, goheap.length_PopTop_snd (lessFor compare isMax) hlen]
        exact goheap.heapPropN_PopTop hsw hh hlen
      · exact goheap.idxOK_PopTop_snd hidx
  | clear pq hr ih =>
    obtain ⟨hc, hm, _, _⟩ := ih
    refine ⟨hc, hm, ?_, ?_⟩
    · intro k hk hkpos
      simp [Clear] at hk
    · intro k hk
      simp [Clear] at hk

/-! ### Congruence: the observable behaviour depends only on the items and
the induced Less test -/

theorem Pop_congr {pq1 pq2 : PriorityQueue α} (hitems : pq1.items = pq2.items)
    (hless : pq1.lessOf = pq2.lessOf) (zero : α) :
    (pq1.Pop zero).1 = (pq2.Pop zero).1
      ∧ (pq1.Pop zero).2.items = (pq2.Pop zero).2.items
      ∧ (pq1.Pop zero).2.lessOf = (pq2.Pop zero).2.lessOf := by
  rcases Nat.eq_zero_or_pos pq1.items.length with hl | hl
  · rw [Pop_of_empty pq1 zero hl, Pop_of_empty pq2 zero (by rw [← hitems]; exact hl)]
    exact ⟨rfl, hitems, hless⟩
  · have hl2 : 0 < pq2.items.length := by rw [← hitems]; exact hl
    rw [Pop_of_pos pq1 zero hl, Pop_of_pos pq2 zero hl2]
    refine ⟨?_, ?_, ?_⟩
    · have heq : pq1.items[0] = pq2.items[0] := by
        have h0 : pq1.items[0]? = pq2.items[0]? := by rw [hitems]
        rw [List.getElem?_eq_getElem hl, List.getElem?_eq_getElem hl2] at h0
        exact Option.some.inj h0
      rw [heq]
    · show (goheap.PopTop pq1.lessOf pq1.items).2
        = (goheap.PopTop pq2.lessOf pq2.items).2
      rw [hitems, hless]
    · show pq1.lessOf = pq2.lessOf
      exact hless

theorem Push_congr {pq1 pq2 : PriorityQueue α} (hitems : pq1.items = pq2.items)
    (hless : pq1.lessOf = pq2.lessOf) (v : α) :
    (pq1.Push v).items = (pq2.Push v).items
      ∧ (pq1.Push v).lessOf = (pq2.Push v).lessOf := by
  constructor
  · show goheap.PushItem pq1.lessOf pq1.items (NewItem v)
      = goheap.PushItem pq2.lessOf pq2.items (NewItem v)
    rw [hitems, hless]
  · show pq1.lessOf = pq2.lessOf
    exact hless

theorem pushList_congr {pq1 pq2 : PriorityQueue α} (hitems : pq1.items = pq2.items)
    (hless : pq1.lessOf = pq2.lessOf) (vs : List α) :
    (pushList pq1 vs).items = (pushList pq2 vs).items
      ∧ (pushList pq1 vs).lessOf = (pushList pq2 vs).lessOf := by
  induction vs generalizing pq1 pq2 with
  | nil => exact ⟨hitems, hless⟩
  | cons v vs ih =>
    have hstep := Push_congr hitems hless v
    exact ih hstep.1 hstep.2

theorem popN_congr {pq1 pq2 : PriorityQueue α} (hitems : pq1.items = pq2.items)
    (hless : pq1.lessOf = pq2.lessOf) (zero : α) (n : Nat) :
    (popN zero n pq1).1 = (popN zero n pq2).1 := by
  induction n generalizing pq1 pq2 with
  | zero => rfl
  | succ n ih =>
    obtain ⟨h1, h2, h3⟩ := Pop_congr hitems hless zero
    show ((pq1.Pop zero).1 :: (popN zero n (pq1.Pop zero).2).1, _).1
      = ((pq2.Pop zero).1 :: (popN zero n (pq2.Pop zero).2).1, _).1
    simp only
    rw [h1, ih h2 h3]

end PriorityQueue

/-! ## The claims -/

/-- C2: for every stack and every sequence of pushes `v1, ..., vn` with no
interleaved pops, the subsequent `n` `Pop` calls all succeed (error flag
`false`) and return `vn, ..., v1` in that order. -/
theorem C2_stack_lifo {α : Type} (zero : α) (s : Stack α) (vs : List α) :
    (Stack.popN zero vs.length (Stack.pushList s vs)).1
      = vs.reverse.map (fun v => (v, false)) := by
  have h := Stack.popN_of_top_append zero vs.reverse s.top
    (Stack.pushList s vs) (Stack.pushList_top s vs)
  rw [show vs.length = vs.reverse.length from (List.length_reverse vs).symm]
  exact h.1

/-- C3 counterexample: a FIFO queue that already holds the value `99` does
not return the newly pushed value `1` on the next pop, so the claim read
over every queue (not just an initially empty one) fails. -/
theorem C3_counterexample :
    (Queue.popN (0 : Int) 1
      (Queue.pushList (Queue.Push (NewQueue Int) 99) [1])).1
      ≠ [((1 : Int), false)] := by
  decide

/-- C3 amended: for every initially empty FIFO queue and every sequence of
pushes `v1, ..., vn` with no interleaved pops, the subsequent `n` `Pop`
calls all succeed and return `v1, ..., vn` in that order. -/
theorem C3_queue_fifo_from_empty {α : Type} (zero : α) (vs : List α) :
    (Queue.popN zero vs.length (Queue.pushList (NewQueue α) vs)).1
      = vs.map (fun v => (v, false)) := by
  have h := Queue.popN_of_front_append zero vs [] (Queue.pushList (NewQueue α) vs)
    (by rw [Queue.pushList_front]; simp [NewQueue])
  exact h.1

/-- C4: each extraction or peek-style operation (stack `Pop`/`Peek`, queue
`Pop`/`Front`/`Rear`, priority-queue `Pop`/`Peek`) reports an error exactly
when the structure holds zero elements. -/
theorem C4_empty_error_iff {α : Type} (zero : α) (s : Stack α) (q : Queue α)
    (pq : PriorityQueue α) :
    ((s.Pop zero).1.2 = true ↔ s.top = [])
      ∧ ((s.Peek zero).2 = true ↔ s.top = [])
      ∧ ((q.Pop zero).1.2 = true ↔ q.front = [])
      ∧ ((q.Front zero).2 = true ↔ q.front = [])
      ∧ ((q.Rear zero).2 = true ↔ q.front = [])
      ∧ ((pq.Pop zero).1.2 = true ↔ pq.items = [])
      ∧ ((pq.Peek zero).2 = true ↔ pq.items = []) := by
  refine ⟨?_, ?_, ?_, ?_, ?_, ?_, ?_⟩
  · cases hs : s.top <;> simp [Stack.Pop, hs]
  · cases hs : s.top <;> simp [Stack.Peek, hs]
  · cases hq : q.front <;> simp [Queue.Pop, hq]
  · cases hq : q.front <;> simp [Queue.Front, hq]
  · cases hq : q.front <;> simp [Queue.Rear, hq]
  · rcases Nat.eq_zero_or_pos pq.items.length with hl | hl
    · rw [PriorityQueue.Pop_of_empty pq zero hl]
      simpa using List.length_eq_zero.mp hl
    · rw [PriorityQueue.Pop_of_pos pq zero hl]
      simp only [Bool.false_eq_true, false_iff]
      intro hq
      rw [hq] at hl
      simp at hl
  · rcases Nat.eq_zero_or_pos pq.items.length with hl | hl
    · rw [PriorityQueue.Peek_of_empty pq zero hl]
      simpa using List.length_eq_zero.mp hl
    · rw [PriorityQueue.Peek_of_pos pq zero hl]
      simp only [Bool.false_eq_true, false_iff]
      intro hq
      rw [hq] at hl
      simp at hl

/-- C1: in a priority queue built by `NewMinQueue compare` (`isMax = false`)
or `NewMaxQueue compare` (`isMax = true`) and driven by pushes, pops and
clears, any two successive successful pops `a` then `b` with no intervening
pushes satisfy `compare a b ≤ 0` for the min orientation and
`compare a b ≥ 0` for the max orientation; the comparator is assumed to
obey the spec's comparator contract. -/
theorem C1_successive_pops_ordered {α : Type} {compare : α → α → Int}
    {isMax : Bool} {pq : PriorityQueue α} (hv : ValidCompare compare)
    (hr : PriorityQueue.Reach compare isMax pq) {zero1 zero2 a b : α}
    (h1 : (pq.Pop zero1).1 = (a, false))
    (h2 : (((pq.Pop zero1).2).Pop zero2).1 = (b, false)) :
    (isMax = false → compare a b ≤ 0) ∧ (isMax = true → 0 ≤ compare a b) := by
  have hsw := hv.swo isMax
  obtain ⟨hc, hm, hh, _⟩ := PriorityQueue.Reach_invariant hsw hr
  have hless : pq.lessOf = lessFor compare isMax := by
    rw [PriorityQueue.lessOf_eq, hc, hm]
  rcases Nat.eq_zero_or_pos pq.items.length with hl | hl
  · rw [PriorityQueue.Pop_of_empty pq zero1 hl] at h1
    exact absurd (congrArg Prod.snd h1) (by simp)
  rw [PriorityQueue.Pop_of_pos pq zero1 hl] at h1 h2
  have ha : (pq.items[0]).value = a := congrArg Prod.fst h1
  rcases Nat.eq_zero_or_pos
      ({ pq with items := (goheap.PopTop pq.lessOf pq.items).2 }
        : PriorityQueue α).items.length with hl2 | hl2
  · rw [PriorityQueue.Pop_of_empty _ zero2 hl2] at h2
    exact absurd (congrArg Prod.snd h2) (by simp)
  rw [PriorityQueue.Pop_of_pos _ zero2 hl2] at h2
  have hb : (((goheap.PopTop pq.lessOf pq.items).2)[0]).value = b :=
    congrArg Prod.fst h2
  have hbmem : b ∈ (goheap.PopTop pq.lessOf pq.items).2.map Item.value := by
    rw [← hb]
    exact List.mem_map.mpr ⟨_, List.getElem_mem hl2, rfl⟩
  have hvals := goheap.vals_PopTop pq.lessOf hl
  have hbmem2 : b ∈ pq.items.map Item.value := by
    have hin : b ∈ (((goheap.PopTop pq.lessOf pq.items).2.map Item.value
        : List α) : Multiset α) := Multiset.mem_coe.mpr hbmem
    have h3 : b ∈ ((pq.items.map Item.value : List α) : Multiset α) := by
      rw [← hvals]
      exact Multiset.mem_add.mpr (Or.inl hin)
    exact Multiset.mem_coe.mp h3
  obtain ⟨it, hitmem, hitval⟩ := List.mem_map.mp hbmem2
  obtain ⟨j, hj, hjit⟩ := List.mem_iff_getElem.mp hitmem
  have hba := goheap.heapPropN_root_min hsw hh (le_refl _) j hj
  rw [goheap.lessAt_eval hj hl, hjit, hitval, ha] at hba
  constructor
  · intro hmx
    subst hmx
    have hba2 := of_decide_eq_false
      (show decide (compare b a < 0) = false from hba)
    have hsg := hv.sign b a
    omega
  · intro hmx
    subst hmx
    have hba2 := of_decide_eq_false
      (show decide (0 < compare b a) = false from hba)
    have hsg := hv.sign a b
    omega

/-- C1 witness: pushing 2 then 1 on a fresh min-queue over `Int` pops 1 and
then 2, and `IntCompare 1 2 ≤ 0`. -/
theorem C1_successive_pops_ordered_witness :
    ((((PriorityQueue.NewMinQueue IntCompare).Push 2).Push 1).Pop 0).1
        = ((1 : Int), false)
      ∧ ((((((PriorityQueue.NewMinQueue IntCompare).Push 2).Push 1).Pop 0).2).Pop
          0).1 = ((2 : Int), false)
      ∧ IntCompare 1 2 ≤ 0 := by
  have h1 : ((((PriorityQueue.NewMinQueue IntCompare).Push 2).Push 1).Pop 0).1
      = ((1 : Int), false) := by
    simp +decide [PriorityQueue.Pop, PriorityQueue.Push, PriorityQueue.NewMinQueue,
      PriorityQueue.lessOf, goheap.PushItem, goheap.PopTop, goheap.PopLast,
      goheap.Swap, goheap.lessAt, goheap.parent, goheap.up.eq_def,
      goheap.downAux.eq_def, IntCompare, NewItem]
  have h2 : ((((((PriorityQueue.NewMinQueue IntCompare).Push 2).Push 1).Pop
      0).2).Pop 0).1 = ((2 : Int), false) := by
    simp +decide [PriorityQueue.Pop, PriorityQueue.Push, PriorityQueue.NewMinQueue,
      PriorityQueue.lessOf, goheap.PushItem, goheap.PopTop, goheap.PopLast,
      goheap.Swap, goheap.lessAt, goheap.parent, goheap.up.eq_def,
      goheap.downAux.eq_def, IntCompare, NewItem]
  exact ⟨h1, h2, (C1_successive_pops_ordered IntCompare_valid
    (PriorityQueue.Reach.push _ 1 (PriorityQueue.Reach.push _ 2
      PriorityQueue.Reach.newq)) h1 h2).1 rfl⟩

/-- C5: on a non-empty min-oriented queue whose comparator's sign flips
under argument exchange, after the value of the stored item at position `k`
has been made strictly smaller than every other stored value, calling
`UpdateItem` on that item makes the very next `Pop` return its value. -/
theorem C5_update_min_pops_first {α : Type} {pq : PriorityQueue α}
    (hmax : pq.isMaxHeap = false)
    (hsign : ∀ a b, pq.compare a b < 0 ↔ 0 < pq.compare b a)
    {k : Nat} (hk : k < pq.items.length)
    (hidx : (pq.items[k]).index = (k : Int))
    (hmin : ∀ m, ∀ hm : m < pq.items.length, m ≠ k →
      pq.compare ((pq.items[k]).value) ((pq.items[m]).value) < 0)
    (zero : α) :
    ((pq.UpdateItem (pq.items[k])).Pop zero).1
      = ((pq.items[k]).value, false) := by
  have hasym : ∀ a b : α, pq.lessOf a b = true → pq.lessOf b a = false := by
    intro a b hab
    rw [PriorityQueue.lessOf_eq, hmax] at hab ⊢
    have h1 := of_decide_eq_true (show decide (pq.compare a b < 0) = true from hab)
    show decide (pq.compare b a < 0) = false
    refine decide_eq_false ?_
    have := (hsign a b).mp h1
    omega
  have hminb : ∀ m, ∀ hm : m < pq.items.length, m ≠ k →
      pq.lessOf ((pq.items[k]).value) ((pq.items[m]).value) = true := by
    intro m hm hmk
    rw [PriorityQueue.lessOf_eq, hmax]
    exact decide_eq_true (hmin m hm hmk)
  have hitems : (pq.UpdateItem (pq.items[k])).items
      = goheap.Fix pq.lessOf pq.items k := by
    show goheap.Fix pq.lessOf pq.items ((pq.items[k]).index).toNat = _
    rw [hidx]
    simp
  have hroot := goheap.fix_strict_min hasym hk hminb
  have hlen : (goheap.Fix pq.lessOf pq.items k).length = pq.items.length := by
    rw [goheap.Fix_eq_fixAtN, goheap.length_fixAtN]
  have hpos2 : 0 < (pq.UpdateItem (pq.items[k])).items.length := by
    rw [hitems, hlen]
    omega
  rw [PriorityQueue.Pop_of_pos _ zero hpos2]
  have hv0 : (((pq.UpdateItem (pq.items[k])).items[0])).value
      = (pq.items[k]).value := by
    have h5 : ((pq.UpdateItem (pq.items[k])).items[0]?).map Item.value
        = some ((pq.items[k]).value) := by
      rw [hitems]
      exact hroot
    rw [List.getElem?_eq_getElem hpos2] at h5
    exact Option.some.inj (by simpa using h5)
  rw [hv0]


/-- C5 witness: the theorem applied to `c5pq` at position 1. -/
theorem C5_update_min_pops_first_witness :
    (c5pq.isMaxHeap = false
      ∧ (1 : Nat) < c5pq.items.length
      ∧ (c5pq.items[1]).index = (1 : Int)
      ∧ (∀ m, ∀ hm : m < c5pq.items.length, m ≠ 1 →
        c5pq.compare ((c5pq.items[1]).value)
          ((c5pq.items[m]).value) < 0))
    ∧ ((c5pq.UpdateItem (c5pq.items[1])).Pop 0).1
        = ((c5pq.items[1]).value, false) :=
  ⟨⟨rfl, by decide, by decide, by decide⟩,
    C5_update_min_pops_first rfl IntCompare_valid.sign (by decide) (by decide)
      (by decide) 0⟩

/-- C6: after a single external mutation of the stored item at position `k`
of a valid heap, `UpdateItem` on that item (whose recorded index is `k`)
computes exactly the spec's reference fix-up — sift-up first, sift-down
only when no upward swap occurred — and restores the heap invariant at
that position. -/
theorem C6_updateitem_is_upfirst_fix {α : Type} {pq : PriorityQueue α}
    (hv : ValidCompare pq.compare)
    (hh : goheap.heapPropN pq.lessOf pq.items pq.items.length)
    {k : Nat} (hk : k < pq.items.length) (it : Item α)
    (hidx : it.index = (k : Int)) :
    (({ pq with items := pq.items.set k it } : PriorityQueue α).UpdateItem
        it).items
      = goheap.FixUpFirst pq.lessOf (pq.items.set k it) k
    ∧ goheap.heapPropN pq.lessOf
        ((({ pq with items := pq.items.set k it }
          : PriorityQueue α).UpdateItem it).items) pq.items.length := by
  have hsw : IsSWO pq.lessOf := by
    rw [PriorityQueue.lessOf_eq]
    exact hv.swo pq.isMaxHeap
  have hitems : (({ pq with items := pq.items.set k it }
      : PriorityQueue α).UpdateItem it).items
      = goheap.Fix pq.lessOf (pq.items.set k it) k := by
    show goheap.Fix pq.lessOf (pq.items.set k it) it.index.toNat = _
    rw [hidx]
    simp
  constructor
  · rw [hitems]
    exact goheap.fix_eq_fixUpFirst hsw it hh hk
  · rw [hitems, goheap.Fix_eq_fixAtN, List.length_set]
    exact goheap.fixAtN_set hsw it hh (le_refl _) hk


/-- C6 witness: the theorem applied to `c6pq`, overwriting position 1 with
the externally mutated item `⟨0, 1⟩`. -/
theorem C6_updateitem_is_upfirst_fix_witness :
    (goheap.heapPropN c6pq.lessOf c6pq.items c6pq.items.length
      ∧ (1 : Nat) < c6pq.items.length)
    ∧ ((({ c6pq with items := c6pq.items.set 1 ⟨0, 1⟩ }
          : PriorityQueue Int).UpdateItem ⟨0, 1⟩).items
        = goheap.FixUpFirst c6pq.lessOf (c6pq.items.set 1 ⟨0, 1⟩) 1
      ∧ goheap.heapPropN c6pq.lessOf
          ((({ c6pq with items := c6pq.items.set 1 ⟨0, 1⟩ }
            : PriorityQueue Int).UpdateItem ⟨0, 1⟩).items)
          c6pq.items.length) :=
  ⟨⟨by decide, by decide⟩,
    C6_updateitem_is_upfirst_fix IntCompare_valid (by decide) (by decide)
      ⟨0, 1⟩ rfl⟩

/-- C7: removing a stored item through its handle takes exactly that item's
value out of the stored multiset, decreases `Size` by one, leaves the
remaining items a valid heap, and when the item sits at the last array
position the removal is a plain shrink of the backing array. -/
theorem C7_remove_spec {α : Type} {pq : PriorityQueue α}
    (hv : ValidCompare pq.compare)
    (hh : goheap.heapPropN pq.lessOf pq.items pq.items.length)
    {i : Nat} (hi : i < pq.items.length) {it : Item α}
    (hstored : pq.items[i] = it) (hidx : it.index = (i : Int)) :
    ((((pq.Remove it).items.map Item.value : List α) : Multiset α) + {it.value}
        = ((pq.items.map Item.value : List α) : Multiset α))
      ∧ (pq.Remove it).Size = pq.Size - 1
      ∧ goheap.heapPropN pq.lessOf (pq.Remove it).items (pq.items.length - 1)
      ∧ (pq.items.length - 1 = i → (pq.Remove it).items = pq.items.dropLast) := by
  have hsw : IsSWO pq.lessOf := by
    rw [PriorityQueue.lessOf_eq]
    exact hv.swo pq.isMaxHeap
  have hitems : (pq.Remove it).items
      = (goheap.RemoveAt pq.lessOf pq.items i).2 := by
    show (goheap.RemoveAt pq.lessOf pq.items it.index.toNat).2 = _
    rw [hidx]
    simp
  have hspec := goheap.RemoveAt_spec hsw hh hi
  refine ⟨?_, ?_, ?_, ?_⟩
  · rw [hitems, ← hstored]
    exact hspec.1
  · show (pq.Remove it).items.length = pq.items.length - 1
    rw [hitems]
    exact hspec.2.1
  · rw [hitems]
    exact hspec.2.2
  · intro hlast
    rw [hitems]
    exact goheap.RemoveAt_last_shrink hlast (by omega)


/-- C7 witness: the theorem applied to `c7pq` and the handle at position 1. -/
theorem C7_remove_spec_witness :
    (goheap.heapPropN c7pq.lessOf c7pq.items c7pq.items.length
      ∧ (1 : Nat) < c7pq.items.length
      ∧ c7pq.items[1] = ⟨3, 1⟩)
    ∧ ((((c7pq.Remove ⟨3, 1⟩).items.map Item.value : List Int) : Multiset Int)
          + {(3 : Int)}
        = ((c7pq.items.map Item.value : List Int) : Multiset Int))
      ∧ (c7pq.Remove ⟨3, 1⟩).Size = c7pq.Size - 1
      ∧ goheap.heapPropN c7pq.lessOf (c7pq.Remove ⟨3, 1⟩).items
          (c7pq.items.length - 1)
      ∧ (c7pq.items.length - 1 = 1 → (c7pq.Remove ⟨3, 1⟩).items
          = c7pq.items.dropLast) :=
  ⟨⟨by decide, by decide, by decide⟩,
    C7_remove_spec IntCompare_valid (by decide) (by decide) (by decide) rfl⟩


/-- C8 counterexample: `ReverseCompare` does not negate a comparator that
returns `-2^63`, because Go's `int` negation wraps around there, so the
claimed identity `ReverseCompare(compare)(a, b) = -compare(a, b)` fails. -/
theorem C8_counterexample :
    ReverseCompare cexCompare () () ≠ -(cexCompare () ()) := by
  decide

/-- C8 amended: `ReverseCompare` negates the comparator whenever the result
stays strictly inside the 64-bit two's-complement range (in particular its
negation does not overflow), and for a comparator whose results are exactly
`-1`, `0`, `1` a min-queue over the reversed comparator pops the same
`(value, error)` sequence as a max-queue over the original comparator for
every push sequence. -/
theorem C8_reverse_compare {α : Type} (compare : α → α → Int) :
    (∀ a b, -(2 ^ 63) < compare a b → compare a b < 2 ^ 63 →
      ReverseCompare compare a b = -(compare a b))
    ∧ ((∀ a b, compare a b = -1 ∨ compare a b = 0 ∨ compare a b = 1) →
      ∀ (zero : α) (vs : List α) (n : Nat),
        (PriorityQueue.popN zero n (PriorityQueue.pushList
          (PriorityQueue.NewMinQueue (ReverseCompare compare)) vs)).1
        = (PriorityQueue.popN zero n (PriorityQueue.pushList
          (PriorityQueue.NewMaxQueue compare) vs)).1) := by
  constructor
  · intro a b h1 h2
    unfold ReverseCompare
    exact wrap64_small (by omega) (by omega)
  · intro hr zero vs n
    have hlessEq : (PriorityQueue.NewMinQueue (ReverseCompare compare)).lessOf
        = (PriorityQueue.NewMaxQueue compare).lessOf := by
      funext a b
      show decide (ReverseCompare compare a b < 0) = decide (0 < compare a b)
      unfold ReverseCompare
      rcases hr a b with h | h | h <;> rw [h] <;> decide
    obtain ⟨hi2, hl2⟩ := PriorityQueue.pushList_congr
      (show (PriorityQueue.NewMinQueue (ReverseCompare compare)).items
        = (PriorityQueue.NewMaxQueue compare).items from rfl) hlessEq vs
    exact PriorityQueue.popN_congr hi2 hl2 zero n

/-- C8 witness: the amended theorem applied to `IntCompare`, once at the
values 3 and 5, and once on the push sequence 10, 30, 20 with three pops. -/
theorem C8_reverse_compare_witness :
    ReverseCompare IntCompare 3 5 = -(IntCompare 3 5)
    ∧ (PriorityQueue.popN 0 3 (PriorityQueue.pushList
        (PriorityQueue.NewMinQueue (ReverseCompare IntCompare)) [10, 30, 20])).1
      = (PriorityQueue.popN 0 3 (PriorityQueue.pushList
        (PriorityQueue.NewMaxQueue IntCompare) [10, 30, 20])).1 :=
  ⟨(C8_reverse_compare IntCompare).1 3 5 (by decide) (by decide),
    (C8_reverse_compare IntCompare).2 IntCompare_pm1 0 [10, 30, 20] 3⟩

/-- C9: when every stored item's `Index` equals its position, this remains
true after `Push`, `Pop`, `UpdateItem`, `Remove` and `Clear` (`Peek` does
not mutate the state), and any item handed out by the heap-level pop or
removal has its `Index` invalidated to `-1`. -/
theorem C9_index_consistency {α : Type} (pq : PriorityQueue α)
    (h : goheap.idxOK pq.items) (v : α) (zero : α) (it : Item α) :
    goheap.idxOK (pq.Push v).items
      ∧ goheap.idxOK ((pq.Pop zero).2).items
      ∧ goheap.idxOK ((pq.UpdateItem it).items)
      ∧ goheap.idxOK ((pq.Remove it).items)
      ∧ goheap.idxOK (pq.Clear).items
      ∧ (∀ it2, (goheap.PopTop pq.lessOf pq.items).1 = some it2 →
          it2.index = -1)
      ∧ (∀ it2, (goheap.RemoveAt pq.lessOf pq.items it.index.toNat).1
          = some it2 → it2.index = -1) := by
  refine ⟨?_, ?_, ?_, ?_, ?_, ?_, ?_⟩
  · exact goheap.idxOK_PushItem h _
  · rcases Nat.eq_zero_or_pos pq.items.length with hl | hl
    · rw [PriorityQueue.Pop_of_empty pq zero hl]
      exact h
    · rw [PriorityQueue.Pop_of_pos pq zero hl]
      exact goheap.idxOK_PopTop_snd h
  · show goheap.idxOK (goheap.Fix pq.lessOf pq.items it.index.toNat)
    rw [goheap.Fix_eq_fixAtN]
    exact goheap.idxOK_fixAtN h _ _
  · exact goheap.idxOK_RemoveAt_snd h _
  · intro k hk
    simp [PriorityQueue.Clear] at hk
  · intro it2 hit2
    simp only [goheap.PopTop] at hit2
    exact goheap.PopLast_fst_index hit2
  · intro it2 hit2
    exact goheap.RemoveAt_fst_index hit2

/-- C9 witness: the theorem applied to a two-element queue with consistent
indices, pushing 9, popping with zero 0, and the handle at position 1. -/
theorem C9_index_consistency_witness :
    goheap.idxOK c5pq.items
    ∧ (goheap.idxOK (c5pq.Push 9).items
      ∧ goheap.idxOK ((c5pq.Pop 0).2).items
      ∧ goheap.idxOK ((c5pq.UpdateItem ⟨1, 1⟩).items)
      ∧ goheap.idxOK ((c5pq.Remove ⟨1, 1⟩).items)
      ∧ goheap.idxOK (c5pq.Clear).items
      ∧ (∀ it2, (goheap.PopTop c5pq.lessOf c5pq.items).1 = some it2 →
          it2.index = -1)
      ∧ (∀ it2, (goheap.RemoveAt c5pq.lessOf c5pq.items
          (Item.index ⟨(1 : Int), 1⟩).toNat).1 = some it2 → it2.index = -1)) :=
  ⟨by decide, C9_index_consistency c5pq (by decide) 9 0 ⟨1, 1⟩⟩

/-- C10: a failed extraction or peek on an empty structure returns the zero
value of the element type and leaves the structure unchanged. -/
theorem C10_empty_zero_value {α : Type} (zero : α) (s : Stack α) (q : Queue α)
    (pq : PriorityQueue α) (hs : s.top = []) (hq : q.front = [])
    (hpq : pq.items = []) :
    s.Pop zero = ((zero, true), s)
      ∧ s.Peek zero = (zero, true)
      ∧ q.Pop zero = ((zero, true), q)
      ∧ q.Front zero = (zero, true)
      ∧ q.Rear zero = (zero, true)
      ∧ pq.Pop zero = ((zero, true), pq)
      ∧ pq.Peek zero = (zero, true) := by
  have hlen : pq.items.length = 0 := by rw [hpq]; rfl
  refine ⟨?_, ?_, ?_, ?_, ?_, ?_, ?_⟩
  · simp [Stack.Pop, hs]
  · simp [Stack.Peek, hs]
  · simp [Queue.Pop, hq]
  · simp [Queue.Front, hq]
  · simp [Queue.Rear, hq]
  · exact PriorityQueue.Pop_of_empty pq zero hlen
  · exact PriorityQueue.Peek_of_empty pq zero hlen

/-- C10 witness: the theorem applied to a freshly constructed stack, queue
and min-priority queue over `Int`. -/
theorem C10_empty_zero_value_witness :
    (NewStack Int).top = [] ∧ (NewQueue Int).front = []
      ∧ (PriorityQueue.NewMinQueue IntCompare).items = []
      ∧ ((NewStack Int).Pop 0 = ((0, true), NewStack Int)
        ∧ (NewStack Int).Peek 0 = (0, true)
        ∧ (NewQueue Int).Pop 0 = ((0, true), NewQueue Int)
        ∧ (NewQueue Int).Front 0 = (0, true)
        ∧ (NewQueue Int).Rear 0 = (0, true)
        ∧ (PriorityQueue.NewMinQueue IntCompare).Pop 0
            = ((0, true), PriorityQueue.NewMinQueue IntCompare)
        ∧ (PriorityQueue.NewMinQueue IntCompare).Peek 0 = (0, true)) :=
  ⟨rfl, rfl, rfl,
    C10_empty_zero_value 0 (NewStack Int) (NewQueue Int)
      (PriorityQueue.NewMinQueue IntCompare) rfl rfl rfl⟩

end DSA
